import Mathlib

/-!
# Shamir secret sharing over GF(2^8)

A shallow embedding of `shamir/shamir.go` (package `shamir`) and a verification of its
specification.  Go values are modelled as follows:

* `uint8` is `Fin 256` (arithmetic wraps modulo 256), `int` is `Int`;
* a slice is a `List`; reading or writing a slice outside its bounds is a run-time panic;
* a call either returns normally, returns an `error`, or panics: see `Result`;
* the two sources of randomness (`rnd.Perm(255)` and `cryptorand.Read`) are inputs of `Split`.
-/

namespace Shamir

/-- A Go `uint8`: arithmetic on it wraps modulo 256. -/
abbrev U8 := Fin 256

/-- Conversion `uint8(n)` of a Go `int`: the low eight bits. -/
def toU8 (n : Int) : U8 := ⟨(n % 256).toNat, by omega⟩

/-- The outcome of a Go call: a normal return, a returned `error`, or a run-time panic. -/
inductive Result (α : Type) where
  | ok (val : α)
  | error (msg : String)
  | fault (msg : String)
  deriving DecidableEq

/-- Sequencing: an error or a panic of the first step ends the computation. -/
def Result.bind {α β : Type} (r : Result α) (f : α → Result β) : Result β :=
  match r with
  | .ok v => f v
  | .error m => .error m
  | .fault m => .fault m

instance : Monad Result where
  pure := Result.ok
  bind := Result.bind

/-- The read `xs[i]` of a slice, which panics outside the bounds. -/
def index {α : Type} (xs : List α) (i : Nat) : Result α :=
  match xs[i]? with
  | some v => .ok v
  | none => .fault "index out of range"

/-- The write `xs[i] = v` into a slice, which panics outside the bounds. -/
def assign {α : Type} (xs : List α) (i : Nat) (v : α) : Result (List α) :=
  if i < xs.length then .ok (xs.set i v) else .fault "index out of range"

/-- The loop `for i := lo; i < hi; i++ { body }` over a loop state. -/
def forFromTo {σ : Type} (lo hi : Nat) (body : Nat → σ → Result σ) (s : σ) : Result σ :=
  (List.range' lo (hi - lo)).foldlM (fun s i => body i s) s

/-- The loop `for i := 0; i < n; i++ { body }` (also `for i := range xs`). -/
def forRange {σ : Type} (n : Nat) (body : Nat → σ → Result σ) (s : σ) : Result σ :=
  forFromTo 0 n body s

/-- The constant `ShareOverhead`. -/
def ShareOverhead : Nat := 1

/-- The type `polynomial`. -/
structure polynomial where
  coefficients : List U8
  deriving DecidableEq

/-- The two package-level arrays `logTable` and `expTable`, both `[256]uint8`. -/
structure Tables where
  logTable : Fin 256 → U8
  expTable : Fin 256 → U8

/-- Modelled from the spec: the contents of `logTable` (the file declaring the tables is not
part of the sources at hand): the logarithms to base `0xe5` in GF(2^8) modulo
`x^8 + x^4 + x^3 + x + 1`, with the entries for 0 and 1 set to `0x00` and `0xff`. -/
def logTableData : List U8 :=
  [0x00, 0xff, 0xc8, 0x08, 0x91, 0x10, 0xd0, 0x36, 0x5a, 0x3e, 0xd8, 0x43, 0x99, 0x77, 0xfe, 0x18,
   0x23, 0x20, 0x07, 0x70, 0xa1, 0x6c, 0x0c, 0x7f, 0x62, 0x8b, 0x40, 0x46, 0xc7, 0x4b, 0xe0, 0x0e,
   0xeb, 0x16, 0xe8, 0xad, 0xcf, 0xcd, 0x39, 0x53, 0x6a, 0x27, 0x35, 0x93, 0xd4, 0x4e, 0x48, 0xc3,
   0x2b, 0x79, 0x54, 0x28, 0x09, 0x78, 0x0f, 0x21, 0x90, 0x87, 0x14, 0x2a, 0xa9, 0x9c, 0xd6, 0x74,
   0xb4, 0x7c, 0xde, 0xed, 0xb1, 0x86, 0x76, 0xa4, 0x98, 0xe2, 0x96, 0x8f, 0x02, 0x32, 0x1c, 0xc1,
   0x33, 0xee, 0xef, 0x81, 0xfd, 0x30, 0x5c, 0x13, 0x9d, 0x29, 0x17, 0xc4, 0x11, 0x44, 0x8c, 0x80,
   0xf3, 0x73, 0x42, 0x1e, 0x1d, 0xb5, 0xf0, 0x12, 0xd1, 0x5b, 0x41, 0xa2, 0xd7, 0x2c, 0xe9, 0xd5,
   0x59, 0xcb, 0x50, 0xa8, 0xdc, 0xfc, 0xf2, 0x56, 0x72, 0xa6, 0x65, 0x2f, 0x9f, 0x9b, 0x3d, 0xba,
   0x7d, 0xc2, 0x45, 0x82, 0xa7, 0x57, 0xb6, 0xa3, 0x7a, 0x75, 0x4f, 0xae, 0x3f, 0x37, 0x6d, 0x47,
   0x61, 0xbe, 0xab, 0xd3, 0x5f, 0xb0, 0x58, 0xaf, 0xca, 0x5e, 0xfa, 0x85, 0xe4, 0x4d, 0x8a, 0x05,
   0xfb, 0x60, 0xb7, 0x7b, 0xb8, 0x26, 0x4a, 0x67, 0xc6, 0x1a, 0xf8, 0x69, 0x25, 0xb3, 0xdb, 0xbd,
   0x66, 0xdd, 0xf1, 0xd2, 0xdf, 0x03, 0x8d, 0x34, 0xd9, 0x92, 0x0d, 0x63, 0x55, 0xaa, 0x49, 0xec,
   0xbc, 0x95, 0x3c, 0x84, 0x0b, 0xf5, 0xe6, 0xe7, 0xe5, 0xac, 0x7e, 0x6e, 0xb9, 0xf9, 0xda, 0x8e,
   0x9a, 0xc9, 0x24, 0xe1, 0x0a, 0x15, 0x6b, 0x3a, 0xa0, 0x51, 0xf4, 0xea, 0xb2, 0x97, 0x9e, 0x5d,
   0x22, 0x88, 0x94, 0xce, 0x19, 0x01, 0x71, 0x4c, 0xa5, 0xe3, 0xc5, 0x31, 0xbb, 0xcc, 0x1f, 0x2d,
   0x3b, 0x52, 0x6f, 0xf6, 0x2e, 0x89, 0xf7, 0xc0, 0x68, 0x1b, 0x64, 0x04, 0x06, 0xbf, 0x83, 0x38]

/-- Modelled from the spec: the contents of `expTable` (the file declaring the tables is not
part of the sources at hand): entry `i` is the `i`-th power of the generator `0xe5`. -/
def expTableData : List U8 :=
  [0x01, 0xe5, 0x4c, 0xb5, 0xfb, 0x9f, 0xfc, 0x12, 0x03, 0x34, 0xd4, 0xc4, 0x16, 0xba, 0x1f, 0x36,
   0x05, 0x5c, 0x67, 0x57, 0x3a, 0xd5, 0x21, 0x5a, 0x0f, 0xe4, 0xa9, 0xf9, 0x4e, 0x64, 0x63, 0xee,
   0x11, 0x37, 0xe0, 0x10, 0xd2, 0xac, 0xa5, 0x29, 0x33, 0x59, 0x3b, 0x30, 0x6d, 0xef, 0xf4, 0x7b,
   0x55, 0xeb, 0x4d, 0x50, 0xb7, 0x2a, 0x07, 0x8d, 0xff, 0x26, 0xd7, 0xf0, 0xc2, 0x7e, 0x09, 0x8c,
   0x1a, 0x6a, 0x62, 0x0b, 0x5d, 0x82, 0x1b, 0x8f, 0x2e, 0xbe, 0xa6, 0x1d, 0xe7, 0x9d, 0x2d, 0x8a,
   0x72, 0xd9, 0xf1, 0x27, 0x32, 0xbc, 0x77, 0x85, 0x96, 0x70, 0x08, 0x69, 0x56, 0xdf, 0x99, 0x94,
   0xa1, 0x90, 0x18, 0xbb, 0xfa, 0x7a, 0xb0, 0xa7, 0xf8, 0xab, 0x28, 0xd6, 0x15, 0x8e, 0xcb, 0xf2,
   0x13, 0xe6, 0x78, 0x61, 0x3f, 0x89, 0x46, 0x0d, 0x35, 0x31, 0x88, 0xa3, 0x41, 0x80, 0xca, 0x17,
   0x5f, 0x53, 0x83, 0xfe, 0xc3, 0x9b, 0x45, 0x39, 0xe1, 0xf5, 0x9e, 0x19, 0x5e, 0xb6, 0xcf, 0x4b,
   0x38, 0x04, 0xb9, 0x2b, 0xe2, 0xc1, 0x4a, 0xdd, 0x48, 0x0c, 0xd0, 0x7d, 0x3d, 0x58, 0xde, 0x7c,
   0xd8, 0x14, 0x6b, 0x87, 0x47, 0xe8, 0x79, 0x84, 0x73, 0x3c, 0xbd, 0x92, 0xc9, 0x23, 0x8b, 0x97,
   0x95, 0x44, 0xdc, 0xad, 0x40, 0x65, 0x86, 0xa2, 0xa4, 0xcc, 0x7f, 0xec, 0xc0, 0xaf, 0x91, 0xfd,
   0xf7, 0x4f, 0x81, 0x2f, 0x5b, 0xea, 0xa8, 0x1c, 0x02, 0xd1, 0x98, 0x71, 0xed, 0x25, 0xe3, 0x24,
   0x06, 0x68, 0xb3, 0x93, 0x2c, 0x6f, 0x3e, 0x6c, 0x0a, 0xb8, 0xce, 0xae, 0x74, 0xb1, 0x42, 0xb4,
   0x1e, 0xd3, 0x49, 0xe9, 0x9c, 0xc8, 0xc6, 0xc7, 0x22, 0x6e, 0xdb, 0x20, 0xbf, 0x43, 0x51, 0x52,
   0x66, 0xb2, 0x76, 0x60, 0xda, 0xc5, 0xf3, 0xf6, 0xaa, 0xcd, 0x9a, 0xa0, 0x75, 0x54, 0x0e, 0x01]

/-- Modelled from the spec: the package's precomputed log/exp tables for GF(2^8). -/
def gfTables : Tables where
  logTable := fun i => logTableData.getD i.val 0
  expTable := fun i => expTableData.getD i.val 0

/-- The function `subtle.ConstantTimeByteEq`: 1 if the bytes are equal, 0 otherwise. -/
def ConstantTimeByteEq (x y : U8) : Int := if x = y then 1 else 0

/-- The function `subtle.ConstantTimeSelect`: `x` if `v` is 1 and `y` if `v` is 0. -/
def ConstantTimeSelect (v x y : Int) : Int := if v = 1 then x else y

/-- The function `add`. -/
def add (a b : U8) : U8 := a ^^^ b

/-- The index `sum` with which `mult` reads `expTable`. -/
def multIndex (T : Tables) (a b : U8) : Int :=
  Int.tmod (((T.logTable a).val : Int) + ((T.logTable b).val : Int)) 255

/-- The index `diff` with which `div` reads `expTable`. -/
def divIndex (T : Tables) (a b : U8) : Int :=
  Int.tmod ((((T.logTable a).val : Int) - ((T.logTable b).val : Int)) + 255) 255

/-- The function `mult`. The read of `expTable` type-checks because the index is in bounds. -/
def mult (T : Tables) (a b : U8) : U8 :=
  let ret : Int := (T.expTable ⟨(multIndex T a b).toNat, by
    have h := Int.tmod_lt_of_pos (((T.logTable a).val : Int) + ((T.logTable b).val : Int))
      (show (0 : Int) < 255 by decide)
    unfold multIndex; omega⟩).val
  let ret := ConstantTimeSelect (ConstantTimeByteEq a 0) 0 ret
  let ret := ConstantTimeSelect (ConstantTimeByteEq b 0) 0 ret
  toU8 ret

/-- The function `div`. The read of `expTable` type-checks because the index is in bounds. -/
def div (T : Tables) (a b : U8) : Result U8 :=
  if b = 0 then .fault "divide by zero"
  else
    let ret : Int := (T.expTable ⟨(divIndex T a b).toNat, by
      have h := Int.tmod_lt_of_pos ((((T.logTable a).val : Int) - ((T.logTable b).val : Int)) + 255)
        (show (0 : Int) < 255 by decide)
      unfold divIndex; omega⟩).val
    let ret := ConstantTimeSelect (ConstantTimeByteEq a 0) 0 ret
    .ok (toU8 ret)

/-- The function `makePolynomial`; `read` is what `cryptorand.Read` does in this call: it fails,
or it supplies the random bytes, of which the call takes `len(coefficients) - 1`. -/
def makePolynomial (intercept degree : U8) (read : Except String (Nat → U8)) :
    Result polynomial := do
  let coefficients : List U8 := List.replicate (degree + 1).val 0
  let coefficients ← assign coefficients 0 intercept
  match read with
  | .error e => .error e
  | .ok bytes =>
    .ok ⟨coefficients.take 1 ++ (List.range (coefficients.length - 1)).map bytes⟩

/-- The loop of `evaluate`, `for i := degree - 1; i >= 0; i--`, entered with `n = i + 1`. -/
def evaluateLoop (T : Tables) (coefficients : List U8) (x : U8) : Nat → U8 → Result U8
  | 0, out => .ok out
  | i + 1, out => do
    let coeff ← index coefficients i
    evaluateLoop T coefficients x i (add (mult T out x) coeff)

/-- The method `polynomial.evaluate`. -/
def evaluate (T : Tables) (p : polynomial) (x : U8) : Result U8 :=
  if x = 0 then index p.coefficients 0
  else
    match p.coefficients.length with
    | 0 => .fault "index out of range"
    | degree + 1 => do
      let out ← index p.coefficients degree
      evaluateLoop T p.coefficients x degree out

/-- The function `interpolatePolynomial`. -/
def interpolatePolynomial (T : Tables) (xSamples ySamples : List U8) (x : U8) : Result U8 :=
  let limit := xSamples.length
  forRange limit (fun i result => do
    let basis ← forRange limit (fun j basis =>
      if i = j then .ok basis
      else do
        let xj ← index xSamples j
        let xi ← index xSamples i
        let num := add x xj
        let denom := add xi xj
        let term ← div T num denom
        .ok (mult T basis term)) (1 : U8)
    let yi ← index ySamples i
    let group := mult T yi basis
    .ok (add result group)) (0 : U8)

/-- The function `Split`; `xCoordinates` is the result of `rnd.Perm(255)` and `rand idx` is what
`cryptorand.Read` does in the call of `makePolynomial` for the byte `idx` of the secret. -/
def Split (T : Tables) (secret : List U8) (parts threshold : Int) (xCoordinates : List Int)
    (rand : Nat → Except String (Nat → U8)) : Result (List (List U8)) :=
  if parts < threshold then .error "parts cannot be less than threshold"
  else if parts > 255 then .error "parts cannot exceed 255"
  else if threshold < 2 then .error "threshold must be at least 2"
  else if threshold > 255 then .error "threshold cannot exceed 255"
  else if secret.length = 0 then .error "cannot split an empty secret"
  else do
    let out : List (List U8) := List.replicate parts.toNat []
    let out ← forRange out.length (fun idx out => do
      let row : List U8 := List.replicate (secret.length + 1) 0
      let xc ← index xCoordinates idx
      let row ← assign row secret.length (toU8 xc + 1)
      assign out idx row) out
    let out ← forRange secret.length (fun idx out => do
      let val ← index secret idx
      match makePolynomial val (toU8 (threshold - 1)) (rand idx) with
      | .error e => .error ("failed to generate polynomial: " ++ e)
      | .fault e => .fault e
      | .ok p =>
        forRange parts.toNat (fun i out => do
          let xc ← index xCoordinates i
          let x := toU8 xc + 1
          let y ← evaluate T p x
          let row ← index out i
          let row ← assign row idx y
          assign out i row) out) out
    .ok out

/-- The function `Combine`. -/
def Combine (T : Tables) (parts : List (List U8)) : Result (List U8) :=
  if parts.length < 2 then
    .error "less than two parts cannot be used to reconstruct the secret"
  else do
    let first ← index parts 0
    let firstPartLen := first.length
    if firstPartLen < 2 then .error "parts must be at least two bytes"
    else do
      forFromTo 1 parts.length (fun i _ => do
        let part ← index parts i
        if part.length ≠ firstPartLen then .error "all parts must be the same length"
        else .ok ()) ()
      let secret : List U8 := List.replicate (firstPartLen - 1) 0
      let xSamples : List U8 := List.replicate parts.length 0
      let ySamples : List U8 := List.replicate parts.length 0
      let checkMap : U8 → Bool := fun _ => false
      let (_, xSamples) ← forRange parts.length (fun i (st : (U8 → Bool) × List U8) => do
        let part ← index parts i
        let samp ← index part (firstPartLen - 1)
        if st.1 samp then .error "duplicate part detected"
        else do
          let checkMap := Function.update st.1 samp true
          let xSamples ← assign st.2 i samp
          .ok (checkMap, xSamples)) (checkMap, xSamples)
      let (secret, _) ← forRange secret.length (fun idx (st : List U8 × List U8) => do
        let ySamples ← forRange parts.length (fun i ySamples => do
          let part ← index parts i
          let y ← index part idx
          assign ySamples i y) st.2
        let val ← interpolatePolynomial T xSamples ySamples 0
        let secret ← assign st.1 idx val
        .ok (secret, ySamples)) (secret, ySamples)
      .ok secret

/-! ## Auxiliary definitions: closed forms of the loops, and the field of the tables -/

/-- The table entry that `mult` selects when neither factor is zero. -/
def expAt (T : Tables) (k : Nat) : U8 := T.expTable ⟨k % 255, by omega⟩

/-- The value that Horner's rule computes from a coefficient list, lowest coefficient first. -/
def hornerVal (T : Tables) (cs : List U8) (x : U8) : U8 :=
  cs.foldr (fun c acc => add (mult T acc x) c) 0

/-- The coefficients that `makePolynomial` produces from the random bytes `bytes`. -/
def coefficientsOf (intercept : U8) (degree : Nat) (bytes : Nat → U8) : List U8 :=
  intercept :: (List.range degree).map bytes

/-- The x-coordinate of share `i`: `uint8(xCoordinates[i]) + 1`. -/
def xOf (xCoordinates : List Int) (i : Nat) : U8 := toU8 (xCoordinates.getD i 0) + 1

/-- The random bytes read for the byte `idx` of the secret. -/
def bytesOf (rand : Nat → Except String (Nat → U8)) (idx : Nat) : Nat → U8 :=
  match rand idx with
  | .ok bytes => bytes
  | .error _ => fun _ => 0

/-- The coefficients of the polynomial made for the byte `idx` of the secret. -/
def polyOf (secret : List U8) (threshold : Int) (rand : Nat → Except String (Nat → U8))
    (idx : Nat) : List U8 :=
  coefficientsOf (secret.getD idx 0) (threshold - 1).toNat (bytesOf rand idx)

/-- Share `i`: the values of the polynomials at the share's x-coordinate, then that coordinate. -/
def shareOf (T : Tables) (secret : List U8) (threshold : Int) (xCoordinates : List Int)
    (rand : Nat → Except String (Nat → U8)) (i : Nat) : List U8 :=
  (List.range secret.length).map
      (fun idx => hornerVal T (polyOf secret threshold rand idx) (xOf xCoordinates i))
    ++ [xOf xCoordinates i]

/-- Row `i` of the output after the polynomials of the first `done` bytes were evaluated. -/
def rowAt (T : Tables) (secret : List U8) (threshold : Int) (xCoordinates : List Int)
    (rand : Nat → Except String (Nat → U8)) (done i : Nat) : List U8 :=
  (List.range (secret.length + 1)).map (fun c =>
    if c = secret.length then xOf xCoordinates i
    else if c < done then hornerVal T (polyOf secret threshold rand c) (xOf xCoordinates i)
    else 0)

/-- The value that `div` returns for a non-zero divisor. -/
def quot (T : Tables) (a b : U8) : U8 :=
  if a = 0 then 0 else expAt T ((T.logTable a).val + 255 - (T.logTable b).val)

/-- The Lagrange basis value that the inner loop of `interpolatePolynomial` computes. -/
def basisVal (T : Tables) (xSamples : List U8) (x : U8) (i : Nat) : U8 :=
  (List.range xSamples.length).foldl (fun basis j =>
    if i = j then basis
    else mult T basis (quot T (add x (xSamples.getD j 0))
      (add (xSamples.getD i 0) (xSamples.getD j 0)))) 1

/-- The value that `interpolatePolynomial` computes. -/
def interpVal (T : Tables) (xSamples ySamples : List U8) (x : U8) : U8 :=
  (List.range xSamples.length).foldl (fun result i =>
    add result (mult T (ySamples.getD i 0) (basisVal T xSamples x i))) 0

/-- The trailing bytes (x-coordinates) of parts of length `L`. -/
def tagsOf (parts : List (List U8)) (L : Nat) : List U8 :=
  parts.map (fun p => p.getD (L - 1) 0)

/-- The bytes at position `idx` of the parts. -/
def columnOf (parts : List (List U8)) (idx : Nat) : List U8 :=
  parts.map (fun p => p.getD idx 0)

/-- The logarithm of a byte in the package's table. -/
def logOf (v : U8) : Nat := (gfTables.logTable v).val

/-- The power `k` of the generator in the package's table. -/
def expOf (k : Nat) : U8 := expAt gfTables k

/-- Multiplication in the field: `mult` with the package's tables. -/
def gmul (a b : U8) : U8 := mult gfTables a b

/-- The inverse in the field. -/
def ginv (a : U8) : U8 := if a = 0 then 0 else expOf (255 - logOf a % 255)

/-- The term that bit `i` of `x` contributes to a product with the constant `c`. -/
def sel (x : U8) (i : Nat) (c : U8) : U8 := if x.val.testBit i then c else 0

/-- The sum of the terms that the bits of `x` select from a list of constants. -/
def selSum (x : U8) : List (Nat × U8) → U8
  | [] => 0
  | p :: rest => add (sel x p.1 p.2) (selSum x rest)

/-- Multiplication by the generator, bit by bit. -/
def genBits (x : U8) : U8 :=
  selSum x [(0, gmul (expOf 1) 1), (1, gmul (expOf 1) 2), (2, gmul (expOf 1) 4),
    (3, gmul (expOf 1) 8), (4, gmul (expOf 1) 16), (5, gmul (expOf 1) 32),
    (6, gmul (expOf 1) 64), (7, gmul (expOf 1) 128)]

/-- The bytes as elements of GF(2^8). -/
def GF : Type := U8

instance : Zero GF := ⟨(0 : U8)⟩
instance : One GF := ⟨(1 : U8)⟩
instance : Add GF := ⟨add⟩
instance : Neg GF := ⟨fun a => a⟩
instance : Mul GF := ⟨gmul⟩
instance : Inv GF := ⟨ginv⟩
instance : DecidableEq GF := inferInstanceAs (DecidableEq (Fin 256))

/-- A byte read as an element of the field. -/
def toGF (a : U8) : GF := a

/-- The sample `i` of a list of bytes, as a field element. -/
def sampleAt (xs : List U8) (i : Nat) : GF := toGF (xs.getD i 0)

/-- The x-coordinates `0, 1, ..., 254` in increasing order, one of the permutations. -/
def identityPerm : List Int := (List.range 255).map Int.ofNat

/-- Sample random bytes: byte `j` read for position `idx` is `37 * idx + 11 * j + 5` modulo 256. -/
def sampleCoeffs (idx j : Nat) : U8 := ⟨(37 * idx + 11 * j + 5) % 256, Nat.mod_lt _ (by decide)⟩

/-- An entropy source that never fails and supplies `sampleCoeffs`. -/
def sampleRand : Nat → Except String (Nat → U8) := fun idx => .ok (sampleCoeffs idx)

/-- Two of the parts, at different places of the list, carry the same trailing byte. -/
def sameTag (parts : List (List U8)) : Prop :=
  ∃ i j : Nat, ∃ b : U8, i < j ∧ j < parts.length ∧
    (parts.getD i []).getLast? = some b ∧ (parts.getD j []).getLast? = some b

/-- The power `x^i` as the `i`-fold product of `x` by `mult`, with `x^0 = 1`. -/
def powMult (T : Tables) (x : U8) : Nat → U8
  | 0 => 1
  | i + 1 => mult T (powMult T x i) x

/-- The polynomial as a sum: the XOR over `i` of `mult(c[i], x^i)`. -/
def polySum (T : Tables) (cs : List U8) (x : U8) : U8 :=
  (List.range cs.length).foldl (fun acc i => add acc (mult T (cs.getD i 0) (powMult T x i))) 0

/-- An element of the field read as a byte. -/
def ofGF (a : GF) : U8 := a

/-! ## The outcome monad and the loops -/

@[simp] theorem ok_bind {α β : Type} (v : α) (f : α → Result β) :
    (Result.ok v >>= f) = f v := rfl

@[simp] theorem error_bind {α β : Type} (m : String) (f : α → Result β) :
    ((Result.error m : Result α) >>= f) = Result.error m := rfl

@[simp] theorem fault_bind {α β : Type} (m : String) (f : α → Result β) :
    ((Result.fault m : Result α) >>= f) = Result.fault m := rfl

@[simp] theorem pure_eq_ok {α : Type} (v : α) : (pure v : Result α) = Result.ok v := rfl

@[simp] theorem bind_ok_right {α : Type} (r : Result α) :
    (r >>= fun v => Result.ok v) = r := by
  cases r <;> rfl

instance : LawfulMonad Result := LawfulMonad.mk' Result
  (fun x => by cases x <;> rfl)
  (fun _ _ => rfl)
  (fun x _ _ => by cases x <;> rfl)

theorem index_eq_ok {α : Type} (xs : List α) (i : Nat) (h : i < xs.length) :
    index xs i = .ok (xs.get ⟨i, h⟩) := by
  simp [index, List.getElem?_eq_getElem h]

theorem index_eq_fault {α : Type} (xs : List α) (i : Nat) (h : xs.length ≤ i) :
    index xs i = .fault "index out of range" := by
  simp [index, List.getElem?_eq_none h]

theorem assign_eq_ok {α : Type} (xs : List α) (i : Nat) (v : α) (h : i < xs.length) :
    assign xs i v = .ok (xs.set i v) := by
  simp [assign, h]

theorem forFromTo_self {σ : Type} (lo : Nat) (body : Nat → σ → Result σ) (s : σ) :
    forFromTo lo lo body s = .ok s := by
  simp [forFromTo]

theorem forFromTo_succ {σ : Type} (lo k : Nat) (body : Nat → σ → Result σ) (s : σ) :
    forFromTo lo (lo + k + 1) body s = (forFromTo lo (lo + k) body s >>= body (lo + k)) := by
  have h1 : lo + k + 1 - lo = k + 1 := by omega
  have h2 : lo + k - lo = k := by omega
  simp [forFromTo, h1, h2, List.range'_concat]

theorem forRange_zero {σ : Type} (body : Nat → σ → Result σ) (s : σ) :
    forRange 0 body s = .ok s := forFromTo_self 0 body s

theorem forRange_succ {σ : Type} (n : Nat) (body : Nat → σ → Result σ) (s : σ) :
    forRange (n + 1) body s = (forRange n body s >>= body n) := by
  have h := forFromTo_succ 0 n body s
  simpa [forRange] using h

/-- The loop rule: an invariant that every iteration re-establishes without failing holds
after the loop, which does not fail either. -/
theorem forRange_inv {σ : Type} (P : Nat → σ → Prop) (n : Nat) (body : Nat → σ → Result σ)
    (s : σ) (h0 : P 0 s)
    (hstep : ∀ i s, i < n → P i s → ∃ t, body i s = .ok t ∧ P (i + 1) t) :
    ∃ t, forRange n body s = .ok t ∧ P n t := by
  induction n with
  | zero => exact ⟨s, forRange_zero body s, h0⟩
  | succ k ih =>
    obtain ⟨t, ht, hP⟩ := ih (fun i s hi hp => hstep i s (Nat.lt_succ_of_lt hi) hp)
    obtain ⟨u, hu, hQ⟩ := hstep k t (Nat.lt_succ_self k) hP
    exact ⟨u, by rw [forRange_succ, ht, ok_bind, hu], hQ⟩

/-! ## Field arithmetic in closed form -/

theorem toU8_val (a : U8) : toU8 (a.val : Int) = a := by
  apply Fin.ext
  simp only [toU8]
  omega

theorem multIndex_eq (T : Tables) (a b : U8) :
    multIndex T a b = (((T.logTable a).val + (T.logTable b).val) % 255 : Nat) := by
  unfold multIndex
  rw [Int.tmod_eq_emod (by omega) (by decide)]
  omega

theorem divIndex_eq (T : Tables) (a b : U8) :
    divIndex T a b = (((T.logTable a).val + 255 - (T.logTable b).val) % 255 : Nat) := by
  unfold divIndex
  rw [Int.tmod_eq_emod (by omega) (by decide)]
  omega

theorem mult_eq (T : Tables) (a b : U8) :
    mult T a b = if a = 0 ∨ b = 0 then 0
      else expAt T ((T.logTable a).val + (T.logTable b).val) := by
  have hidx : (multIndex T a b).toNat = ((T.logTable a).val + (T.logTable b).val) % 255 := by
    rw [multIndex_eq]; rfl
  unfold mult expAt
  simp only [hidx, ConstantTimeSelect, ConstantTimeByteEq]
  by_cases ha : a = 0
  · by_cases hb : b = 0 <;> simp [ha, hb, toU8]
  · by_cases hb : b = 0
    · simp [ha, hb, toU8]
    · simp [ha, hb, toU8_val]

theorem div_eq (T : Tables) (a b : U8) (hb : b ≠ 0) :
    div T a b = .ok (if a = 0 then 0
      else expAt T ((T.logTable a).val + 255 - (T.logTable b).val)) := by
  have hidx : (divIndex T a b).toNat = ((T.logTable a).val + 255 - (T.logTable b).val) % 255 := by
    rw [divIndex_eq]; rfl
  unfold div expAt
  simp only [hidx, ConstantTimeSelect, ConstantTimeByteEq, hb, if_false]
  by_cases ha : a = 0
  · simp [ha, toU8]
  · simp [ha, toU8_val]

theorem div_zero (T : Tables) (a : U8) : div T a 0 = .fault "divide by zero" := by
  simp [div]

theorem add_val (a b : U8) : (add a b).val = a.val ^^^ b.val := by
  have h : a.val ^^^ b.val < 2 ^ 8 := @Nat.xor_lt_two_pow a.val b.val 8 a.isLt b.isLt
  show (a ^^^ b).val = _
  show (Nat.xor a.val b.val) % 256 = _
  exact Nat.mod_eq_of_lt h

theorem add_comm' (a b : U8) : add a b = add b a :=
  Fin.ext (by rw [add_val, add_val, Nat.xor_comm])

theorem add_assoc' (a b c : U8) : add (add a b) c = add a (add b c) :=
  Fin.ext (by simp only [add_val, Nat.xor_assoc])

theorem add_zero' (a : U8) : add a 0 = a :=
  Fin.ext (by rw [add_val]; simp)

theorem zero_add' (a : U8) : add 0 a = a :=
  Fin.ext (by rw [add_val]; simp)

theorem add_self' (a : U8) : add a a = 0 :=
  Fin.ext (by rw [add_val]; simp)

theorem add_eq_zero_iff' (a b : U8) : add a b = 0 ↔ a = b := by
  constructor
  · intro h
    have h1 : add (add a b) b = add 0 b := by rw [h]
    rw [add_assoc', add_self', add_zero', zero_add'] at h1
    exact h1
  · rintro rfl
    exact add_self' a

theorem mult_zero_left (T : Tables) (b : U8) : mult T 0 b = 0 := by
  simp [mult_eq]

theorem mult_zero_right (T : Tables) (a : U8) : mult T a 0 = 0 := by
  simp [mult_eq]

/-! ## Polynomials -/

theorem hornerVal_cons (T : Tables) (c : U8) (cs : List U8) (x : U8) :
    hornerVal T (c :: cs) x = add (mult T (hornerVal T cs x) x) c := rfl

theorem hornerVal_at_zero (T : Tables) (c : U8) (cs : List U8) :
    hornerVal T (c :: cs) 0 = c := by
  rw [hornerVal_cons, mult_zero_right, zero_add']

theorem evaluateLoop_eq (T : Tables) (cs : List U8) (x : U8) (n : Nat) (hn : n ≤ cs.length) :
    evaluateLoop T cs x n (hornerVal T (cs.drop n) x) = .ok (hornerVal T cs x) := by
  induction n with
  | zero => simp [evaluateLoop]
  | succ i ih =>
    have hi : i < cs.length := hn
    have hd : cs.drop i = cs.get ⟨i, hi⟩ :: cs.drop (i + 1) := by
      simp
    rw [evaluateLoop, index_eq_ok cs i hi, ok_bind, ← hornerVal_cons, ← hd]
    exact ih (Nat.le_of_lt hi)

/-- The method `evaluate` returns Horner's value on every polynomial that has a coefficient. -/
theorem evaluate_eq (T : Tables) (cs : List U8) (x : U8) (hcs : cs ≠ []) :
    evaluate T ⟨cs⟩ x = .ok (hornerVal T cs x) := by
  obtain ⟨c, tl, rfl⟩ := List.exists_cons_of_ne_nil hcs
  unfold evaluate
  by_cases hx : x = 0
  · subst hx
    simp [index, hornerVal_at_zero]
  · simp only [hx, if_false, List.length_cons]
    have hlen : tl.length < (c :: tl).length := by simp
    rw [index_eq_ok _ _ hlen, ok_bind]
    have hd : hornerVal T ((c :: tl).drop tl.length) x = (c :: tl).get ⟨tl.length, hlen⟩ := by
      have : (c :: tl).drop tl.length = [(c :: tl).get ⟨tl.length, hlen⟩] := by
        rw [List.drop_eq_getElem_cons hlen]
        simp
      rw [this]
      simp [hornerVal, mult_zero_left, zero_add']
    rw [← hd]
    exact evaluateLoop_eq T (c :: tl) x tl.length (Nat.le_of_lt hlen)

theorem makePolynomial_eq (intercept degree : U8) (bytes : Nat → U8) (hd : degree.val < 255) :
    makePolynomial intercept degree (.ok bytes)
      = .ok ⟨coefficientsOf intercept degree.val bytes⟩ := by
  have h1 : (degree + 1).val = degree.val + 1 := by
    rw [Fin.val_add]
    simp
    omega
  unfold makePolynomial
  rw [h1, List.replicate_succ]
  simp [assign, coefficientsOf]

theorem makePolynomial_error (intercept degree : U8) (e : String) (hd : degree.val < 255) :
    makePolynomial intercept degree (.error e) = .error e := by
  have h1 : (degree + 1).val = degree.val + 1 := by
    rw [Fin.val_add]
    simp
    omega
  unfold makePolynomial
  rw [h1, List.replicate_succ]
  simp [assign]

/-! ## The shares that `Split` returns -/

theorem map_range_set {α : Type} (n k : Nat) (f : Nat → α) (v : α) :
    ((List.range n).map f).set k v = (List.range n).map (fun i => if i = k then v else f i) := by
  apply List.ext_getElem?
  intro i
  rw [List.getElem?_set]
  by_cases hk : k = i
  · subst hk
    by_cases hn : k < n
    · simp [hn]
    · have h0 : (List.range n)[k]? = none := List.getElem?_eq_none (by simpa using hn)
      simp [hn, h0]
  · have hk2 : ¬ i = k := fun h => hk h.symm
    by_cases hn : i < n
    · simp [hk, hk2, hn]
    · have h0 : (List.range n)[i]? = none := List.getElem?_eq_none (by simpa using hn)
      simp [hk, h0]

theorem map_range_congr {α : Type} (n : Nat) (f g : Nat → α) (h : ∀ i, i < n → f i = g i) :
    (List.range n).map f = (List.range n).map g :=
  List.map_congr_left (fun i hi => h i (List.mem_range.mp hi))

theorem index_map_range {α : Type} (n i : Nat) (f : Nat → α) (h : i < n) :
    index ((List.range n).map f) i = .ok (f i) := by
  simp [index, h]

theorem assign_map_range {α : Type} (n k : Nat) (f : Nat → α) (v : α) (h : k < n) :
    assign ((List.range n).map f) k v
      = .ok ((List.range n).map (fun i => if i = k then v else f i)) := by
  rw [assign_eq_ok _ _ _ (by simpa using h), map_range_set]

theorem rowAt_full (T : Tables) (secret : List U8) (threshold : Int) (xCoordinates : List Int)
    (rand : Nat → Except String (Nat → U8)) (i : Nat) :
    rowAt T secret threshold xCoordinates rand secret.length i
      = shareOf T secret threshold xCoordinates rand i := by
  unfold rowAt shareOf
  rw [List.range_succ, List.map_append]
  congr 1
  · apply map_range_congr
    intro c hc
    simp [Nat.ne_of_lt hc, hc]
  · simp

theorem toU8_pred (threshold : Int) (h2 : 2 ≤ threshold) (h255 : threshold ≤ 255) :
    (toU8 (threshold - 1)).val = (threshold - 1).toNat := by
  simp only [toU8]
  omega

/-- The whole of `Split` on a valid input, when no read of random bytes fails. -/
theorem Split_eq (T : Tables) (secret : List U8) (parts threshold : Int)
    (xCoordinates : List Int) (rand : Nat → Except String (Nat → U8))
    (h1 : threshold ≤ parts) (h2 : parts ≤ 255) (h3 : 2 ≤ threshold) (h4 : secret ≠ [])
    (hx : parts.toNat ≤ xCoordinates.length)
    (hr : ∀ idx, idx < secret.length → ∃ bytes, rand idx = .ok bytes) :
    Split T secret parts threshold xCoordinates rand
      = .ok ((List.range parts.toNat).map (shareOf T secret threshold xCoordinates rand)) := by
  have hlen : secret.length ≠ 0 := by
    intro h; exact h4 (List.length_eq_zero.mp h)
  unfold Split
  rw [if_neg (by omega), if_neg (by omega), if_neg (by omega), if_neg (by omega), if_neg hlen]
  -- the first loop allocates the rows and writes the x-coordinates
  obtain ⟨out1, hout1, hP1⟩ := forRange_inv
    (fun k out => out = (List.range parts.toNat).map (fun i =>
      if i < k then rowAt T secret threshold xCoordinates rand 0 i else []))
    parts.toNat
    (fun idx out => do
      let row : List U8 := List.replicate (secret.length + 1) 0
      let xc ← index xCoordinates idx
      let row ← assign row secret.length (toU8 xc + 1)
      assign out idx row)
    (List.replicate parts.toNat [])
    (by
      apply List.ext_getElem?
      intro i
      by_cases hi : i < parts.toNat <;> simp [hi])
    (by
      intro i s hi hs
      subst hs
      have hxi : i < xCoordinates.length := Nat.lt_of_lt_of_le hi hx
      refine ⟨_, ?_, rfl⟩
      dsimp only
      rw [index_eq_ok _ _ hxi, ok_bind, assign_eq_ok _ _ _ (by simp), ok_bind,
        assign_map_range _ _ _ _ hi]
      congr 1
      apply map_range_congr
      intro j hj
      by_cases hji : j = i
      · subst hji
        simp only [if_true, Nat.lt_succ_self]
        unfold rowAt
        apply List.ext_getElem?
        intro c
        rw [List.getElem?_set]
        by_cases hc : secret.length = c
        · subst hc
          simp [xOf, List.getD_eq_getElem?_getD, List.getElem?_eq_getElem hxi]
        · have hc2 : ¬ c = secret.length := fun h => hc h.symm
          by_cases hcl : c < secret.length + 1
          · simp [hc, hc2, hcl]
          · have h0 : (List.range (secret.length + 1))[c]? = none :=
              List.getElem?_eq_none (by simpa using hcl)
            have h1 : (List.replicate (secret.length + 1) (0 : U8))[c]? = none :=
              List.getElem?_eq_none (by simpa using hcl)
            simp [hc, h0, h1]
      · have : j < i + 1 ↔ j < i := by omega
        simp [hji, this])
  simp only [List.length_replicate]
  rw [hout1, ok_bind]
  subst hP1
  -- the second loop evaluates one polynomial for each byte of the secret
  obtain ⟨out2, hout2, hP2⟩ := forRange_inv
    (fun k out => out = (List.range parts.toNat).map
      (rowAt T secret threshold xCoordinates rand k))
    secret.length
    (fun idx out => do
      let val ← index secret idx
      match makePolynomial val (toU8 (threshold - 1)) (rand idx) with
      | .error e => .error ("failed to generate polynomial: " ++ e)
      | .fault e => .fault e
      | .ok p =>
        forRange parts.toNat (fun i out => do
          let xc ← index xCoordinates i
          let x := toU8 xc + 1
          let y ← evaluate T p x
          let row ← index out i
          let row ← assign row idx y
          assign out i row) out)
    ((List.range parts.toNat).map (fun i =>
      if i < parts.toNat then rowAt T secret threshold xCoordinates rand 0 i else []))
    (by
      apply map_range_congr
      intro i hi
      simp [hi])
    (by
      intro idx s hidx hs
      subst hs
      obtain ⟨bytes, hb⟩ := hr idx hidx
      have hdeg : (toU8 (threshold - 1)).val < 255 := by
        rw [toU8_pred threshold h3 (by omega)]; omega
      dsimp only
      rw [index_eq_ok _ _ hidx, ok_bind, hb, makePolynomial_eq _ _ _ hdeg]
      simp only []
      have hpoly : coefficientsOf (secret.get ⟨idx, hidx⟩) (toU8 (threshold - 1)).val bytes
          = polyOf secret threshold rand idx := by
        unfold polyOf bytesOf
        rw [hb, toU8_pred threshold h3 (by omega)]
        simp [List.getD_eq_getElem?_getD, List.getElem?_eq_getElem hidx]
      rw [hpoly]
      obtain ⟨out3, hout3, hP3⟩ := forRange_inv
        (fun k out => out = (List.range parts.toNat).map (fun i =>
          if i < k then rowAt T secret threshold xCoordinates rand (idx + 1) i
          else rowAt T secret threshold xCoordinates rand idx i))
        parts.toNat
        (fun i out => do
          let xc ← index xCoordinates i
          let x := toU8 xc + 1
          let y ← evaluate T ⟨polyOf secret threshold rand idx⟩ x
          let row ← index out i
          let row ← assign row idx y
          assign out i row)
        ((List.range parts.toNat).map (rowAt T secret threshold xCoordinates rand idx))
        (by
          apply map_range_congr
          intro i _
          simp)
        (by
          intro i s hi hs
          subst hs
          have hxi : i < xCoordinates.length := Nat.lt_of_lt_of_le hi hx
          refine ⟨_, ?_, rfl⟩
          dsimp only
          rw [index_eq_ok _ _ hxi, ok_bind,
            evaluate_eq T _ _ (by simp [polyOf, coefficientsOf]), ok_bind,
            index_map_range _ _ _ hi, ok_bind]
          simp only [Nat.lt_irrefl, if_false]
          unfold rowAt
          rw [assign_map_range _ _ _ _ (Nat.lt_succ_of_lt hidx), ok_bind,
            assign_map_range _ _ _ _ hi]
          congr 1
          apply map_range_congr
          intro j hj
          by_cases hji : j = i
          · subst hji
            simp only [if_true, Nat.lt_succ_self]
            apply map_range_congr
            intro c hc
            by_cases hci : c = idx
            · subst hci
              simp [Nat.ne_of_lt hidx, xOf, List.getD_eq_getElem?_getD,
                List.getElem?_eq_getElem hxi]
            · have : c < idx + 1 ↔ c < idx := by omega
              simp [hci, this]
          · have : j < i + 1 ↔ j < i := by omega
            simp [hji, this])
      refine ⟨out3, hout3, ?_⟩
      rw [hP3]
      apply map_range_congr
      intro i hi
      simp [hi])
  rw [hout2, ok_bind, hP2]
  congr 1
  apply map_range_congr
  intro i _
  exact rowAt_full T secret threshold xCoordinates rand i

/-! ## More on loops -/

/-- A loop whose iterations all return normally is a left fold. -/
theorem forRange_pure {σ : Type} (n : Nat) (body : Nat → σ → Result σ) (g : σ → Nat → σ)
    (s : σ) (h : ∀ i s, i < n → body i s = .ok (g s i)) :
    forRange n body s = .ok ((List.range n).foldl g s) := by
  induction n with
  | zero => exact forRange_zero body s
  | succ k ih =>
    rw [forRange_succ, ih (fun i s hi => h i s (Nat.lt_succ_of_lt hi)), ok_bind,
      h k _ (Nat.lt_succ_self k), List.range_succ, List.foldl_append]
    rfl

/-- A loop that has returned an error stays with it. -/
theorem forFromTo_error {σ : Type} (lo k m : Nat) (body : Nat → σ → Result σ) (s : σ)
    (e : String) (h : forFromTo lo (lo + k) body s = .error e) :
    forFromTo lo (lo + k + m) body s = .error e := by
  induction m with
  | zero => exact h
  | succ j ih =>
    have : lo + k + (j + 1) = lo + (k + j) + 1 := by omega
    rw [this, forFromTo_succ]
    have h2 : lo + (k + j) = lo + k + j := by omega
    rw [h2, ih, error_bind]

/-- The loop of `Combine` that compares the lengths of the parts with the first one. -/
theorem lengthLoop_eq (parts : List (List U8)) (L : Nat) (k : Nat)
    (hk : 1 + k ≤ parts.length) :
    ((∀ i, 1 ≤ i → i < 1 + k → (parts.getD i []).length = L) →
      forFromTo 1 (1 + k) (fun i (_ : Unit) => do
        let part ← index parts i
        if part.length ≠ L then .error "all parts must be the same length"
        else .ok ()) () = .ok ()) ∧
    ((¬ ∀ i, 1 ≤ i → i < 1 + k → (parts.getD i []).length = L) →
      forFromTo 1 (1 + k) (fun i (_ : Unit) => do
        let part ← index parts i
        if part.length ≠ L then .error "all parts must be the same length"
        else .ok ()) () = .error "all parts must be the same length") := by
  induction k with
  | zero =>
    constructor
    · intro _
      exact forFromTo_self _ _ _
    · intro h
      exact absurd (fun i h1 h2 => by omega) h
  | succ j ih =>
    obtain ⟨ih1, ih2⟩ := ih (by omega)
    rw [show 1 + (j + 1) = 1 + j + 1 by omega, forFromTo_succ]
    have hj : 1 + j < parts.length := by omega
    have hget : parts.getD (1 + j) [] = parts.get ⟨1 + j, hj⟩ := by
      simp [List.getD_eq_getElem?_getD, List.getElem?_eq_getElem hj]
    constructor
    · intro hall
      rw [ih1 (fun i h1 h2 => hall i h1 (by omega)), ok_bind, index_eq_ok _ _ hj, ok_bind]
      have hlast : (parts.get ⟨1 + j, hj⟩).length = L := by
        rw [← hget]; exact hall (1 + j) (by omega) (by omega)
      rw [if_neg (by simpa using hlast)]
    · intro hnot
      by_cases hall : ∀ i, 1 ≤ i → i < 1 + j → (parts.getD i []).length = L
      · rw [ih1 hall, ok_bind, index_eq_ok _ _ hj, ok_bind]
        have hlast : ¬ (parts.get ⟨1 + j, hj⟩).length = L := by
          intro hl
          apply hnot
          intro i h1 h2
          by_cases hi : i = 1 + j
          · subst hi
            rw [hget]
            exact hl
          · exact hall i h1 (by omega)
        rw [if_pos (by simpa using hlast)]
      · rw [ih2 hall, error_bind]

theorem list_eq_map_range {α : Type} (l : List α) (d : α) :
    l = (List.range l.length).map (fun i => l.getD i d) := by
  apply List.ext_getElem?
  intro i
  by_cases hi : i < l.length
  · simp [hi, List.getD_eq_getElem?_getD, List.getElem?_eq_getElem hi]
  · have h0 : (List.range l.length)[i]? = none := List.getElem?_eq_none (by simpa using hi)
    have h1 : l[i]? = none := List.getElem?_eq_none (by simpa using hi)
    simp [h0, h1]

theorem getD_eq_get {α : Type} (l : List α) (d : α) (i : Nat) (h : i < l.length) :
    l.getD i d = l.get ⟨i, h⟩ := by
  simp [List.getD_eq_getElem?_getD, List.getElem?_eq_getElem h]

/-! ## Interpolation in closed form -/

theorem nodup_getD_ne (xs : List U8) (h : xs.Nodup) (i j : Nat) (hi : i < xs.length)
    (hj : j < xs.length) (hij : i ≠ j) : xs.getD i 0 ≠ xs.getD j 0 := by
  rw [getD_eq_get xs 0 i hi, getD_eq_get xs 0 j hj]
  intro heq
  have := (List.Nodup.get_inj_iff h).mp heq
  exact hij (by simpa using congrArg Fin.val this)

/-- On pairwise distinct x-samples `interpolatePolynomial` returns, without dividing by zero. -/
theorem interpolatePolynomial_eq (T : Tables) (xSamples ySamples : List U8) (x : U8)
    (hnd : xSamples.Nodup) (hlen : xSamples.length ≤ ySamples.length) :
    interpolatePolynomial T xSamples ySamples x = .ok (interpVal T xSamples ySamples x) := by
  unfold interpolatePolynomial interpVal
  apply forRange_pure
  intro i result hi
  dsimp only
  rw [forRange_pure xSamples.length _ (fun basis j =>
    if i = j then basis
    else mult T basis (quot T (add x (xSamples.getD j 0))
      (add (xSamples.getD i 0) (xSamples.getD j 0)))) 1]
  · rw [ok_bind, index_eq_ok _ _ (Nat.lt_of_lt_of_le hi hlen), ok_bind,
      ← getD_eq_get ySamples 0 i (Nat.lt_of_lt_of_le hi hlen)]
    rfl
  · intro j basis hj
    by_cases hij : i = j
    · simp [hij]
    · simp only [hij, if_false]
      rw [index_eq_ok _ _ hj, ok_bind, index_eq_ok _ _ hi, ok_bind,
        ← getD_eq_get xSamples 0 j hj, ← getD_eq_get xSamples 0 i hi]
      have hne : add (xSamples.getD i 0) (xSamples.getD j 0) ≠ 0 := by
        intro h0
        exact nodup_getD_ne xSamples hnd i j hi hj hij ((add_eq_zero_iff' _ _).mp h0)
      rw [div_eq T _ _ hne, ok_bind]
      rfl

/-! ## The loops of `Combine` -/

theorem tagsOf_getD (parts : List (List U8)) (L i : Nat) (hi : i < parts.length) :
    (tagsOf parts L).getD i 0 = (parts.get ⟨i, hi⟩).getD (L - 1) 0 := by
  simp [tagsOf, List.getD_eq_getElem?_getD, List.getElem?_eq_getElem hi]

theorem replicate_eq_map_range {α : Type} (n : Nat) (v : α) :
    List.replicate n v = (List.range n).map (fun _ => v) := by
  apply List.ext_getElem?
  intro i
  by_cases hi : i < n
  · simp [hi]
  · have h0 : (List.range n)[i]? = none := List.getElem?_eq_none (by simpa using hi)
    have h1 : (List.replicate n v)[i]? = none := List.getElem?_eq_none (by simpa using hi)
    simp [h0, h1]

theorem take_succ_eq {α : Type} (l : List α) (k : Nat) (h : k < l.length) :
    l.take (k + 1) = l.take k ++ [l.get ⟨k, h⟩] := by
  rw [List.take_succ, List.getElem?_eq_getElem h]
  rfl

/-- The loop of `Combine` that collects the x-samples and looks for a duplicate. -/
theorem checkLoop_eq (parts : List (List U8)) (L : Nat) (hL : ∀ p ∈ parts, p.length = L)
    (h1 : 1 ≤ L) (k : Nat) (hk : k ≤ parts.length) :
    (((tagsOf parts L).take k).Nodup →
      forRange k (fun i (st : (U8 → Bool) × List U8) => do
        let part ← index parts i
        let samp ← index part (L - 1)
        if st.1 samp then .error "duplicate part detected"
        else do
          let checkMap := Function.update st.1 samp true
          let xSamples ← assign st.2 i samp
          .ok (checkMap, xSamples)) (fun _ => false, List.replicate parts.length 0)
      = .ok (fun b => decide (b ∈ (tagsOf parts L).take k),
          (List.range parts.length).map
            (fun i => if i < k then (tagsOf parts L).getD i 0 else 0))) ∧
    ((¬ ((tagsOf parts L).take k).Nodup) →
      forRange k (fun i (st : (U8 → Bool) × List U8) => do
        let part ← index parts i
        let samp ← index part (L - 1)
        if st.1 samp then .error "duplicate part detected"
        else do
          let checkMap := Function.update st.1 samp true
          let xSamples ← assign st.2 i samp
          .ok (checkMap, xSamples)) (fun _ => false, List.replicate parts.length 0)
      = .error "duplicate part detected") := by
  induction k with
  | zero =>
    constructor
    · intro _
      rw [forRange_zero, replicate_eq_map_range]
      simp
    · intro h
      exact absurd (by simp) h
  | succ j ih =>
    obtain ⟨ih1, ih2⟩ := ih (by omega)
    have hj : j < parts.length := hk
    have hjt : j < (tagsOf parts L).length := by simpa [tagsOf] using hj
    have hpl : (parts.get ⟨j, hj⟩).length = L := hL _ (List.get_mem parts j hj)
    have hlt : L - 1 < (parts.get ⟨j, hj⟩).length := by omega
    have htag : (tagsOf parts L).get ⟨j, hjt⟩ = (parts.get ⟨j, hj⟩).get ⟨L - 1, hlt⟩ := by
      rw [← getD_eq_get _ 0, tagsOf_getD parts L j hj, getD_eq_get]
    rw [forRange_succ, take_succ_eq _ _ hjt]
    constructor
    · intro hnd
      have hnd1 : ((tagsOf parts L).take j).Nodup := by
        rw [List.nodup_append] at hnd
        exact hnd.1
      have hnotin : (tagsOf parts L).get ⟨j, hjt⟩ ∉ (tagsOf parts L).take j := by
        rw [List.nodup_append] at hnd
        intro hmem
        exact hnd.2.2 hmem (List.mem_singleton_self _)
      rw [ih1 hnd1, ok_bind, index_eq_ok _ _ hj, ok_bind, index_eq_ok _ _ hlt, ok_bind]
      dsimp only
      rw [← htag, if_neg (by simpa using hnotin), assign_map_range _ _ _ _ hj, ok_bind]
      congr 2
      · funext b
        by_cases hb : b = (tagsOf parts L).get ⟨j, hjt⟩
        · rw [hb, Function.update_same]
          symm
          rw [decide_eq_true_iff]
          exact List.mem_append_right _ (List.mem_singleton_self _)
        · rw [Function.update_noteq hb]
          simp only [List.mem_append, List.mem_singleton, hb, or_false]
      · apply map_range_congr
        intro i hi
        by_cases hij : i = j
        · rw [hij, if_pos rfl, if_pos (Nat.lt_succ_self _), getD_eq_get _ _ _ hjt]
        · have : i < j + 1 ↔ i < j := by omega
          simp [hij, this]
    · intro hnd
      by_cases hnd1 : ((tagsOf parts L).take j).Nodup
      · have hin : (tagsOf parts L).get ⟨j, hjt⟩ ∈ (tagsOf parts L).take j := by
          by_contra hcon
          apply hnd
          rw [List.nodup_append]
          refine ⟨hnd1, List.nodup_singleton _, ?_⟩
          intro a ha hb
          rw [List.mem_singleton] at hb
          subst hb
          exact hcon ha
        rw [ih1 hnd1, ok_bind, index_eq_ok _ _ hj, ok_bind, index_eq_ok _ _ hlt, ok_bind]
        dsimp only
        rw [← htag, if_pos (by simpa using hin)]
      · rw [ih2 hnd1, error_bind]

/-- The inner loop of `Combine` that gathers the y-samples of one byte position. -/
theorem gatherLoop_eq (parts : List (List U8)) (L idx : Nat) (hL : ∀ p ∈ parts, p.length = L)
    (hidx : idx < L) (ySamples : List U8) (hy : ySamples.length = parts.length) :
    forRange parts.length (fun i ySamples => do
        let part ← index parts i
        let y ← index part idx
        assign ySamples i y) ySamples = .ok (columnOf parts idx) := by
  obtain ⟨t, ht, hP⟩ := forRange_inv
    (fun k ys => ys = (List.range parts.length).map
      (fun i => if i < k then (columnOf parts idx).getD i 0 else ySamples.getD i 0))
    parts.length
    (fun i ySamples => do
        let part ← index parts i
        let y ← index part idx
        assign ySamples i y)
    ySamples
    (by
      have h := list_eq_map_range ySamples 0
      rw [hy] at h
      simpa using h)
    (by
      intro i s hi hs
      subst hs
      have hpl : (parts.get ⟨i, hi⟩).length = L := hL _ (List.get_mem parts i hi)
      have hlt : idx < (parts.get ⟨i, hi⟩).length := by omega
      refine ⟨_, ?_, rfl⟩
      dsimp only
      rw [index_eq_ok _ _ hi, ok_bind, index_eq_ok _ _ hlt, ok_bind,
        assign_map_range _ _ _ _ hi]
      congr 1
      apply map_range_congr
      intro j hj
      by_cases hji : j = i
      · subst hji
        have hlt2 : idx < parts[j].length := hlt
        simp [columnOf, List.getD_eq_getElem?_getD, List.getElem?_eq_getElem hi,
          List.getElem?_eq_getElem hlt2]
      · have : j < i + 1 ↔ j < i := by omega
        simp [hji, this])
  rw [ht, hP]
  have h := list_eq_map_range (columnOf parts idx) 0
  have hc : (columnOf parts idx).length = parts.length := by simp [columnOf]
  rw [hc] at h
  rw [h]
  congr 1
  apply map_range_congr
  intro i hi
  simp [hi]

/-- The whole of `Combine` on at least two parts that all have the same length `L ≥ 2`. -/
theorem Combine_eq (T : Tables) (parts : List (List U8)) (L : Nat) (hn : 2 ≤ parts.length)
    (hL : ∀ p ∈ parts, p.length = L) (h2 : 2 ≤ L) :
    ((tagsOf parts L).Nodup →
      Combine T parts = .ok ((List.range (L - 1)).map
        (fun idx => interpVal T (tagsOf parts L) (columnOf parts idx) 0))) ∧
    ((¬ (tagsOf parts L).Nodup) → Combine T parts = .error "duplicate part detected") := by
  have h0 : 0 < parts.length := by omega
  have hfirst : (parts.get ⟨0, h0⟩).length = L := hL _ (List.get_mem parts 0 h0)
  have hlenloop := (lengthLoop_eq parts L (parts.length - 1) (by omega)).1
    (by
      intro i _ hi
      have hi2 : i < parts.length := by omega
      rw [getD_eq_get _ _ _ hi2]
      exact hL _ (List.get_mem parts i hi2))
  rw [show 1 + (parts.length - 1) = parts.length by omega] at hlenloop
  have htake : (tagsOf parts L).take parts.length = tagsOf parts L := by
    apply List.take_of_length_le
    simp [tagsOf]
  have hxs : (List.range parts.length).map
      (fun i => if i < parts.length then (tagsOf parts L).getD i 0 else 0) = tagsOf parts L := by
    have h := list_eq_map_range (tagsOf parts L) 0
    have hc : (tagsOf parts L).length = parts.length := by simp [tagsOf]
    rw [hc] at h
    rw [h]
    apply map_range_congr
    intro i hi
    rw [← h]
    simp [hi]
  obtain ⟨hc1, hc2⟩ := checkLoop_eq parts L hL (by omega) parts.length (Nat.le_refl _)
  rw [htake, hxs] at hc1
  rw [htake] at hc2
  constructor
  · intro hnd
    unfold Combine
    rw [if_neg (by omega), index_eq_ok _ _ h0, ok_bind]
    simp only [hfirst]
    rw [if_neg (by omega), hlenloop, ok_bind, hc1 hnd, ok_bind]
    dsimp only
    obtain ⟨t, ht, hP⟩ := forRange_inv
      (fun k (st : List U8 × List U8) => st.1 = (List.range (L - 1)).map
          (fun c => if c < k then interpVal T (tagsOf parts L) (columnOf parts c) 0 else 0)
        ∧ st.2.length = parts.length)
      (L - 1)
      (fun idx (st : List U8 × List U8) => do
        let ySamples ← forRange parts.length (fun i ySamples => do
          let part ← index parts i
          let y ← index part idx
          assign ySamples i y) st.2
        let val ← interpolatePolynomial T (tagsOf parts L) ySamples 0
        let secret ← assign st.1 idx val
        .ok (secret, ySamples))
      (List.replicate (L - 1) 0, List.replicate parts.length 0)
      (by
        constructor
        · rw [replicate_eq_map_range]
          simp
        · simp)
      (by
        intro idx st hidx hst
        obtain ⟨hs1, hs2⟩ := hst
        have hcl : (columnOf parts idx).length = parts.length := by simp [columnOf]
        refine ⟨((List.range (L - 1)).map (fun c =>
            if c = idx then interpVal T (tagsOf parts L) (columnOf parts idx) 0
            else if c < idx then interpVal T (tagsOf parts L) (columnOf parts c) 0 else 0),
          columnOf parts idx), ?_, ?_, hcl⟩
        · dsimp only
          rw [gatherLoop_eq parts L idx hL (by omega) st.2 hs2, ok_bind,
            interpolatePolynomial_eq T _ _ _ hnd (by simp [tagsOf, columnOf]), ok_bind,
            hs1, assign_map_range _ _ _ _ hidx, ok_bind]
        · dsimp only
          apply map_range_congr
          intro c hc
          by_cases hci : c = idx
          · simp [hci]
          · have : c < idx + 1 ↔ c < idx := by omega
            simp [hci, this])
    simp only [List.length_replicate]
    rw [ht, ok_bind]
    rw [hP.1]
    congr 1
    apply map_range_congr
    intro c hc
    simp [hc]
  · intro hnd
    unfold Combine
    rw [if_neg (by omega), index_eq_ok _ _ h0, ok_bind]
    simp only [hfirst]
    rw [if_neg (by omega), hlenloop, ok_bind, hc2 hnd, error_bind]

theorem Combine_few (T : Tables) (parts : List (List U8)) (hn : parts.length < 2) :
    Combine T parts
      = .error "less than two parts cannot be used to reconstruct the secret" := by
  unfold Combine
  rw [if_pos hn]

theorem Combine_first_short (T : Tables) (parts : List (List U8)) (hn : 2 ≤ parts.length)
    (h1 : (parts.getD 0 []).length < 2) :
    Combine T parts = .error "parts must be at least two bytes" := by
  have h0 : 0 < parts.length := by omega
  rw [getD_eq_get _ _ _ h0] at h1
  unfold Combine
  rw [if_neg (by omega), index_eq_ok _ _ h0, ok_bind]
  dsimp only
  rw [if_pos h1]

theorem Combine_mismatch (T : Tables) (parts : List (List U8)) (hn : 2 ≤ parts.length)
    (h1 : 2 ≤ (parts.getD 0 []).length)
    (h2 : ¬ ∀ i, 1 ≤ i → i < parts.length →
      (parts.getD i []).length = (parts.getD 0 []).length) :
    Combine T parts = .error "all parts must be the same length" := by
  have h0 : 0 < parts.length := by omega
  have hloop := (lengthLoop_eq parts (parts.getD 0 []).length (parts.length - 1) (by omega)).2
  rw [show 1 + (parts.length - 1) = parts.length by omega] at hloop
  have hl := hloop h2
  rw [getD_eq_get _ _ _ h0] at h1 hl
  unfold Combine
  rw [if_neg (by omega), index_eq_ok _ _ h0, ok_bind]
  dsimp only
  rw [if_neg (by omega), hl, error_bind]

/-! ## The field GF(2^8) behind the tables -/

set_option maxRecDepth 100000 in
theorem expOf_logOf_table : ∀ v : U8, v ≠ 0 → expAt gfTables (gfTables.logTable v).val = v := by
  decide!

set_option maxRecDepth 100000 in
theorem logOf_expOf_table : ∀ k : Fin 255, expAt gfTables k.val ≠ 0 ∧
    (gfTables.logTable (expAt gfTables k.val)).val % 255 = k.val := by
  decide!

theorem expOf_congr (k m : Nat) (h : k % 255 = m % 255) : expOf k = expOf m := by
  unfold expOf expAt
  congr 2

theorem expOf_mod (k : Nat) : expOf (k % 255) = expOf k :=
  expOf_congr _ _ (Nat.mod_mod _ _)

theorem expOf_logOf (v : U8) (h : v ≠ 0) : expOf (logOf v) = v :=
  expOf_logOf_table v h

theorem expOf_ne_zero (k : Nat) : expOf k ≠ 0 := by
  rw [← expOf_mod]
  exact (logOf_expOf_table ⟨k % 255, Nat.mod_lt _ (by decide)⟩).1

theorem logOf_expOf (k : Nat) : logOf (expOf k) % 255 = k % 255 := by
  rw [← expOf_mod]
  exact (logOf_expOf_table ⟨k % 255, Nat.mod_lt _ (by decide)⟩).2

theorem gmul_eq (a b : U8) :
    gmul a b = if a = 0 ∨ b = 0 then 0 else expOf (logOf a + logOf b) :=
  mult_eq gfTables a b

theorem gmul_expOf (i j : Nat) : gmul (expOf i) (expOf j) = expOf (i + j) := by
  rw [gmul_eq, if_neg (by simp [expOf_ne_zero])]
  apply expOf_congr
  rw [Nat.add_mod, logOf_expOf, logOf_expOf, ← Nat.add_mod]

theorem gmul_comm (a b : U8) : gmul a b = gmul b a := by
  simp [gmul_eq, Nat.add_comm, or_comm]

theorem gmul_zero_left (b : U8) : gmul 0 b = 0 := mult_zero_left gfTables b

theorem gmul_zero_right (a : U8) : gmul a 0 = 0 := mult_zero_right gfTables a

theorem gmul_assoc (a b c : U8) : gmul (gmul a b) c = gmul a (gmul b c) := by
  by_cases ha : a = 0
  · simp [ha, gmul_zero_left]
  by_cases hb : b = 0
  · simp [hb, gmul_zero_left, gmul_zero_right]
  by_cases hc : c = 0
  · simp [hc, gmul_zero_right]
  rw [← expOf_logOf a ha, ← expOf_logOf b hb, ← expOf_logOf c hc]
  simp only [gmul_expOf, Nat.add_assoc]

theorem expOf_zero : expOf 0 = 1 := by decide

theorem gmul_one_left (a : U8) : gmul 1 a = a := by
  by_cases ha : a = 0
  · simp [ha, gmul_zero_right]
  rw [← expOf_zero]
  conv_lhs => rw [← expOf_logOf a ha]
  rw [gmul_expOf, Nat.zero_add, expOf_logOf a ha]

theorem gmul_ginv (a : U8) (ha : a ≠ 0) : gmul a (ginv a) = 1 := by
  unfold ginv
  rw [if_neg ha]
  have h : gmul (expOf (logOf a)) (expOf (255 - logOf a % 255)) = 1 := by
    rw [gmul_expOf, ← expOf_zero]
    apply expOf_congr
    have := Nat.mod_lt (logOf a) (show 0 < 255 by decide)
    omega
  rwa [expOf_logOf a ha] at h

/-- The function `quot` is multiplication by the inverse. -/
theorem quot_eq (a b : U8) (hb : b ≠ 0) : quot gfTables a b = gmul a (ginv b) := by
  unfold quot ginv
  rw [if_neg hb]
  by_cases ha : a = 0
  · simp [ha, gmul_zero_left]
  rw [if_neg ha]
  have h : expAt gfTables ((gfTables.logTable a).val + 255 - (gfTables.logTable b).val)
      = gmul (expOf (logOf a)) (expOf (255 - logOf b % 255)) := by
    rw [gmul_expOf]
    apply expOf_congr
    have h1 := Nat.mod_lt (logOf b) (show 0 < 255 by decide)
    have h2 : (gfTables.logTable b).val < 256 := (gfTables.logTable b).isLt
    unfold logOf
    unfold logOf at h1
    omega
  rwa [expOf_logOf a ha] at h

set_option maxRecDepth 100000 in
theorem gmul_gen_table : ∀ x : U8, mult gfTables (expAt gfTables 1) x = genBits x := by
  decide!

theorem add_left_comm' (a b c : U8) : add a (add b c) = add b (add a c) := by
  rw [← add_assoc', add_comm' a b, add_assoc']

theorem add_add_add_comm' (a b c d : U8) :
    add (add a b) (add c d) = add (add a c) (add b d) := by
  rw [add_assoc', add_assoc', add_left_comm' b c d]

theorem sel_add (x y : U8) (i : Nat) (c : U8) :
    sel (add x y) i c = add (sel x i c) (sel y i c) := by
  unfold sel
  rw [add_val, Nat.testBit_xor]
  cases x.val.testBit i <;> cases y.val.testBit i <;>
    simp [add_self', add_zero', zero_add']

theorem selSum_add (x y : U8) (l : List (Nat × U8)) :
    selSum (add x y) l = add (selSum x l) (selSum y l) := by
  induction l with
  | nil => simp [selSum, add_zero']
  | cons p rest ih => rw [selSum, selSum, selSum, ih, sel_add, add_add_add_comm']

theorem genBits_add (x y : U8) : genBits (add x y) = add (genBits x) (genBits y) :=
  selSum_add x y _

theorem gmul_gen_add (x y : U8) :
    gmul (expOf 1) (add x y) = add (gmul (expOf 1) x) (gmul (expOf 1) y) := by
  have h := gmul_gen_table
  have hx : gmul (expOf 1) x = genBits x := h x
  have hy : gmul (expOf 1) y = genBits y := h y
  have hxy : gmul (expOf 1) (add x y) = genBits (add x y) := h (add x y)
  rw [hx, hy, hxy, genBits_add]

theorem gmul_expOf_add (k : Nat) (x y : U8) :
    gmul (expOf k) (add x y) = add (gmul (expOf k) x) (gmul (expOf k) y) := by
  induction k generalizing x y with
  | zero => simp only [expOf_zero, gmul_one_left]
  | succ j ih =>
    have hj : expOf (j + 1) = gmul (expOf 1) (expOf j) := by
      rw [gmul_expOf, Nat.add_comm]
    rw [hj, gmul_assoc, gmul_assoc, gmul_assoc, ih, gmul_gen_add]

theorem gmul_add (a x y : U8) : gmul a (add x y) = add (gmul a x) (gmul a y) := by
  by_cases ha : a = 0
  · simp [ha, gmul_zero_left, add_zero']
  rw [← expOf_logOf a ha]
  exact gmul_expOf_add _ x y

instance : Field GF := Field.ofMinimalAxioms GF
  (fun a b c => add_assoc' a b c)
  (fun a => zero_add' a)
  (fun a => add_self' a)
  (fun a b c => gmul_assoc a b c)
  (fun a b => gmul_comm a b)
  (fun a => gmul_one_left a)
  (fun a ha => gmul_ginv a ha)
  (by show ginv 0 = 0; simp [ginv])
  (fun a b c => gmul_add a b c)
  ⟨(0 : U8), (1 : U8), by decide⟩

theorem GF_add_def (a b : GF) : a + b = add a b := rfl
theorem GF_mul_def (a b : GF) : a * b = gmul a b := rfl
theorem GF_inv_def (a : GF) : a⁻¹ = ginv a := rfl
theorem GF_sub_def (a b : GF) : a - b = add a b := by
  rw [sub_eq_add_neg]
  rfl

/-! ## Horner's rule and Lagrange interpolation over the field -/

open Polynomial in
/-- Horner's value is the value of a polynomial of degree below the number of coefficients. -/
theorem hornerVal_poly (cs : List U8) :
    ∃ p : Polynomial GF, p.degree < (cs.length : WithBot Nat) ∧
      ∀ x : GF, p.eval x = hornerVal gfTables cs x := by
  induction cs with
  | nil =>
    refine ⟨0, ?_, ?_⟩
    · simp
    · intro x
      simp [hornerVal]
  | cons c cs ih =>
    obtain ⟨p, hdeg, hev⟩ := ih
    refine ⟨C (toGF c) + p * X, ?_, ?_⟩
    · apply lt_of_le_of_lt (degree_add_le _ _)
      apply max_lt
      · apply lt_of_le_of_lt degree_C_le
        simp only [List.length_cons, Nat.cast_add, Nat.cast_one]
        exact_mod_cast Nat.succ_pos cs.length
      · rw [degree_mul_X]
        simp only [List.length_cons, Nat.cast_add, Nat.cast_one]
        exact WithBot.add_lt_add_right (by simp) hdeg
    · intro x
      rw [hornerVal_cons, eval_add, eval_C, eval_mul, eval_X, hev, add_comm]
      rfl

theorem foldl_eq_prod (n : Nat) (g : GF → Nat → GF) (f : Nat → GF)
    (h : ∀ acc j, j < n → g acc j = acc * f j) (a : GF) :
    (List.range n).foldl g a = a * ∏ j ∈ Finset.range n, f j := by
  induction n with
  | zero => simp
  | succ k ih =>
    rw [List.range_succ, List.foldl_append, ih (fun acc j hj => h acc j (Nat.lt_succ_of_lt hj)),
      Finset.prod_range_succ, List.foldl_cons, List.foldl_nil, h _ _ (Nat.lt_succ_self k),
      mul_assoc]

theorem foldl_eq_sum (n : Nat) (g : GF → Nat → GF) (f : Nat → GF)
    (h : ∀ acc j, j < n → g acc j = acc + f j) (a : GF) :
    (List.range n).foldl g a = a + ∑ j ∈ Finset.range n, f j := by
  induction n with
  | zero => simp
  | succ k ih =>
    rw [List.range_succ, List.foldl_append, ih (fun acc j hj => h acc j (Nat.lt_succ_of_lt hj)),
      Finset.sum_range_succ, List.foldl_cons, List.foldl_nil, h _ _ (Nat.lt_succ_self k),
      add_assoc]

theorem basisVal_eq_prod (xs : List U8) (x : U8) (i : Nat) (hnd : xs.Nodup)
    (hi : i < xs.length) :
    toGF (basisVal gfTables xs x i) = ∏ j ∈ (Finset.range xs.length).erase i,
      ((sampleAt xs i - sampleAt xs j)⁻¹ * ((toGF x) - sampleAt xs j)) := by
  unfold basisVal
  rw [foldl_eq_prod xs.length _ (fun j => if i = j then 1
    else (sampleAt xs i - sampleAt xs j)⁻¹ * ((toGF x) - sampleAt xs j))]
  · rw [one_mul, ← Finset.mul_prod_erase _ _ (Finset.mem_range.mpr hi), if_pos rfl, one_mul]
    apply Finset.prod_congr rfl
    intro j hj
    rw [if_neg (fun h => (Finset.mem_erase.mp hj).1 h.symm)]
  · intro acc j hj
    by_cases hij : i = j
    · simp [hij]
    · simp only [hij, if_false]
      have hne : add (xs.getD i 0) (xs.getD j 0) ≠ 0 := by
        intro h0
        exact nodup_getD_ne xs hnd i j hi hj hij ((add_eq_zero_iff' _ _).mp h0)
      rw [quot_eq _ _ hne]
      exact congrArg (gmul acc) (gmul_comm _ _)

open Polynomial in
theorem eval_interpolate_eq (n : Nat) (v r : Nat → GF) (x : GF) :
    (Lagrange.interpolate (Finset.range n) v r).eval x
      = ∑ i ∈ Finset.range n, r i * ∏ j ∈ (Finset.range n).erase i,
          ((v i - v j)⁻¹ * (x - v j)) := by
  rw [Lagrange.interpolate_apply, eval_finset_sum]
  apply Finset.sum_congr rfl
  intro i _
  rw [eval_mul, eval_C, Lagrange.basis, eval_prod]
  congr 1
  apply Finset.prod_congr rfl
  intro j _
  simp [Lagrange.basisDivisor]

theorem interpVal_eq_sum (xs ys : List U8) (x : U8) (hnd : xs.Nodup) :
    toGF (interpVal gfTables xs ys x)
      = (Lagrange.interpolate (Finset.range xs.length) (sampleAt xs) (sampleAt ys)).eval
          (toGF x) := by
  rw [eval_interpolate_eq]
  unfold interpVal
  rw [foldl_eq_sum xs.length _ (fun i => sampleAt ys i *
    ∏ j ∈ (Finset.range xs.length).erase i,
      ((sampleAt xs i - sampleAt xs j)⁻¹ * ((toGF x) - sampleAt xs j)))]
  · exact zero_add _
  · intro acc i hi
    rw [← basisVal_eq_prod xs x i hnd hi]
    rfl

/-- Interpolating the values of a polynomial at enough distinct points gives its value. -/
theorem interpVal_hornerVal (cs xs : List U8) (x : U8) (hnd : xs.Nodup)
    (hlen : cs.length ≤ xs.length) :
    interpVal gfTables xs (xs.map (fun a => hornerVal gfTables cs a)) x
      = hornerVal gfTables cs x := by
  obtain ⟨p, hdeg, hev⟩ := hornerVal_poly cs
  have hinj : Set.InjOn (sampleAt xs) (Finset.range xs.length : Set Nat) := by
    intro i hi j hj hij
    by_contra hne
    have hi2 : i < xs.length := by simpa using hi
    have hj2 : j < xs.length := by simpa using hj
    exact nodup_getD_ne xs hnd i j hi2 hj2 hne hij
  have hdeg2 : p.degree < ((Finset.range xs.length).card : WithBot Nat) := by
    rw [Finset.card_range]
    exact lt_of_lt_of_le hdeg (by exact_mod_cast hlen)
  have hp := Lagrange.eq_interpolate_of_eval_eq (sampleAt (xs.map (fun a => hornerVal gfTables cs a)))
    hinj hdeg2 (by
      intro i hi
      have hi2 : i < xs.length := by simpa using hi
      rw [hev]
      unfold sampleAt
      simp [List.getD_eq_getElem?_getD, List.getElem?_eq_getElem hi2]
      rfl)
  have h1 := interpVal_eq_sum xs (xs.map (fun a => hornerVal gfTables cs a)) x hnd
  rw [← hp, hev] at h1
  exact h1

/-! ## What a successful `Split` implies -/

theorem bind_eq_ok {α β : Type} (r : Result α) (f : α → Result β) (v : β)
    (h : (r >>= f) = .ok v) : ∃ a, r = .ok a ∧ f a = .ok v := by
  cases r with
  | ok a => exact ⟨a, rfl, h⟩
  | error m => exact Result.noConfusion h
  | fault m => exact Result.noConfusion h

/-- Every iteration of a loop that returned normally has returned normally. -/
theorem forRange_ok_prefix {σ : Type} (n : Nat) (body : Nat → σ → Result σ) (s t : σ)
    (h : forRange n body s = .ok t) (k : Nat) (hk : k < n) :
    ∃ u v, forRange k body s = .ok u ∧ body k u = .ok v := by
  induction n generalizing t with
  | zero => omega
  | succ m ih =>
    rw [forRange_succ] at h
    obtain ⟨u, hu, hb⟩ := bind_eq_ok _ _ _ h
    by_cases hkm : k = m
    · subst hkm
      exact ⟨u, t, hu, hb⟩
    · exact ih u hu (by omega)

theorem index_ok_lt {α : Type} (xs : List α) (i : Nat) (v : α) (h : index xs i = .ok v) :
    i < xs.length := by
  by_contra hlt
  rw [index_eq_fault xs i (by omega)] at h
  exact Result.noConfusion h

/-- A `Split` that returns shares was called on a valid input, and no read failed. -/
theorem Split_ok_imp (T : Tables) (secret : List U8) (parts threshold : Int)
    (xCoordinates : List Int) (rand : Nat → Except String (Nat → U8))
    (shares : List (List U8))
    (h : Split T secret parts threshold xCoordinates rand = .ok shares) :
    threshold ≤ parts ∧ parts ≤ 255 ∧ 2 ≤ threshold ∧ secret ≠ [] ∧
      parts.toNat ≤ xCoordinates.length ∧
      (∀ idx, idx < secret.length → ∃ bytes, rand idx = .ok bytes) := by
  unfold Split at h
  by_cases g1 : parts < threshold
  · rw [if_pos g1] at h
    exact Result.noConfusion h
  rw [if_neg g1] at h
  by_cases g2 : parts > 255
  · rw [if_pos g2] at h
    exact Result.noConfusion h
  rw [if_neg g2] at h
  by_cases g3 : threshold < 2
  · rw [if_pos g3] at h
    exact Result.noConfusion h
  rw [if_neg g3] at h
  by_cases g4 : threshold > 255
  · rw [if_pos g4] at h
    exact Result.noConfusion h
  rw [if_neg g4] at h
  by_cases g5 : secret.length = 0
  · rw [if_pos g5] at h
    exact Result.noConfusion h
  rw [if_neg g5] at h
  obtain ⟨out1, hl1, h⟩ := bind_eq_ok _ _ _ h
  obtain ⟨out2, hl2, _⟩ := bind_eq_ok _ _ _ h
  simp only [List.length_replicate] at hl1
  have hsecret : secret ≠ [] := by
    intro hnil
    exact g5 (by rw [hnil]; rfl)
  refine ⟨by omega, by omega, by omega, hsecret, ?_, ?_⟩
  · by_contra hx
    have hpos : xCoordinates.length < parts.toNat := by omega
    obtain ⟨u, v, _, hb⟩ := forRange_ok_prefix _ _ _ _ hl1 xCoordinates.length hpos
    rw [index_eq_fault _ _ (Nat.le_refl _)] at hb
    exact Result.noConfusion hb
  · intro idx hidx
    obtain ⟨u, v, _, hb⟩ := forRange_ok_prefix _ _ _ _ hl2 idx hidx
    dsimp only at hb
    rw [index_eq_ok _ _ hidx, ok_bind] at hb
    cases hr : rand idx with
    | ok bytes => exact ⟨bytes, rfl⟩
    | error e =>
      rw [hr, makePolynomial_error _ _ _ (by
        rw [toU8_pred threshold (by omega) (by omega)]; omega)] at hb
      exact Result.noConfusion hb

/-- The shares of a successful `Split`. -/
theorem Split_ok_eq (T : Tables) (secret : List U8) (parts threshold : Int)
    (xCoordinates : List Int) (rand : Nat → Except String (Nat → U8))
    (shares : List (List U8))
    (h : Split T secret parts threshold xCoordinates rand = .ok shares) :
    shares = (List.range parts.toNat).map (shareOf T secret threshold xCoordinates rand) := by
  obtain ⟨h1, h2, h3, h4, hx, hr⟩ := Split_ok_imp T secret parts threshold xCoordinates rand shares h
  rw [Split_eq T secret parts threshold xCoordinates rand h1 h2 h3 h4 hx hr] at h
  exact (Result.ok.inj h).symm

theorem shareOf_length (T : Tables) (secret : List U8) (threshold : Int)
    (xCoordinates : List Int) (rand : Nat → Except String (Nat → U8)) (i : Nat) :
    (shareOf T secret threshold xCoordinates rand i).length = secret.length + 1 := by
  simp [shareOf]

theorem shareOf_last (T : Tables) (secret : List U8) (threshold : Int)
    (xCoordinates : List Int) (rand : Nat → Except String (Nat → U8)) (i : Nat) :
    (shareOf T secret threshold xCoordinates rand i).getLast? = some (xOf xCoordinates i) := by
  simp [shareOf]

theorem shareOf_tag (T : Tables) (secret : List U8) (threshold : Int)
    (xCoordinates : List Int) (rand : Nat → Except String (Nat → U8)) (i : Nat) :
    (shareOf T secret threshold xCoordinates rand i).getD secret.length 0
      = xOf xCoordinates i := by
  unfold shareOf
  rw [List.getD_eq_getElem?_getD, List.getElem?_append_right (by simp)]
  simp

theorem shareOf_byte (T : Tables) (secret : List U8) (threshold : Int)
    (xCoordinates : List Int) (rand : Nat → Except String (Nat → U8)) (i idx : Nat)
    (hidx : idx < secret.length) :
    (shareOf T secret threshold xCoordinates rand i).getD idx 0
      = hornerVal T (polyOf secret threshold rand idx) (xOf xCoordinates i) := by
  unfold shareOf
  rw [List.getD_eq_getElem?_getD, List.getElem?_append_left (by simpa using hidx)]
  simp [hidx]

/-! ## The x-coordinates drawn from a permutation of 0..254 -/

theorem perm_length (xCoordinates : List Int)
    (hperm : xCoordinates.Perm ((List.range 255).map Int.ofNat)) :
    xCoordinates.length = 255 := by
  rw [hperm.length_eq]
  simp

theorem perm_bounds (xCoordinates : List Int)
    (hperm : xCoordinates.Perm ((List.range 255).map Int.ofNat))
    (i : Nat) (hi : i < 255) :
    0 ≤ xCoordinates.getD i 0 ∧ xCoordinates.getD i 0 < 255 := by
  have hlen := perm_length xCoordinates hperm
  have hi2 : i < xCoordinates.length := by omega
  have hmem : xCoordinates.getD i 0 ∈ xCoordinates := by
    rw [getD_eq_get _ _ _ hi2]
    exact List.get_mem _ _ _
  have hmem2 := hperm.mem_iff.mp hmem
  rw [List.mem_map] at hmem2
  obtain ⟨k, hk, hk2⟩ := hmem2
  rw [List.mem_range] at hk
  have hk3 : (k : Int) = xCoordinates.getD i 0 := hk2
  omega

theorem xOf_val (xCoordinates : List Int)
    (hperm : xCoordinates.Perm ((List.range 255).map Int.ofNat))
    (i : Nat) (hi : i < 255) :
    ((xOf xCoordinates i).val : Int) = xCoordinates.getD i 0 + 1 := by
  obtain ⟨h0, h1⟩ := perm_bounds xCoordinates hperm i hi
  unfold xOf
  rw [Fin.val_add]
  simp only [toU8]
  have : ((1 : Fin 256).val) = 1 := rfl
  rw [this]
  omega

theorem xOf_inj (xCoordinates : List Int)
    (hperm : xCoordinates.Perm ((List.range 255).map Int.ofNat))
    (i j : Nat) (hi : i < 255) (hj : j < 255) (h : xOf xCoordinates i = xOf xCoordinates j) :
    i = j := by
  have hlen := perm_length xCoordinates hperm
  have hnd : xCoordinates.Nodup := by
    rw [hperm.nodup_iff]
    apply List.Nodup.map _ (List.nodup_range 255)
    intro a b hab
    exact Int.ofNat.inj hab
  have hi2 : i < xCoordinates.length := by omega
  have hj2 : j < xCoordinates.length := by omega
  have e1 := xOf_val xCoordinates hperm i hi
  have e2 := xOf_val xCoordinates hperm j hj
  rw [h] at e1
  have e3 : xCoordinates.getD i 0 = xCoordinates.getD j 0 := by omega
  rw [getD_eq_get _ _ _ hi2, getD_eq_get _ _ _ hj2] at e3
  have := (List.Nodup.get_inj_iff hnd).mp e3
  simpa using congrArg Fin.val this

/-! ## Reconstruction -/

theorem polyOf_length (secret : List U8) (threshold : Int)
    (rand : Nat → Except String (Nat → U8)) (idx : Nat) :
    (polyOf secret threshold rand idx).length = (threshold - 1).toNat + 1 := by
  simp [polyOf, coefficientsOf]

theorem polyOf_at_zero (T : Tables) (secret : List U8) (threshold : Int)
    (rand : Nat → Except String (Nat → U8)) (idx : Nat) :
    hornerVal T (polyOf secret threshold rand idx) 0 = secret.getD idx 0 := by
  unfold polyOf coefficientsOf
  exact hornerVal_at_zero T _ _

/-- Combining at least `threshold` distinct shares of a split gives the secret back. -/
theorem combine_shares (secret : List U8) (parts threshold : Int) (xCoordinates : List Int)
    (rand : Nat → Except String (Nat → U8))
    (hs : secret ≠ []) (h2 : 2 ≤ threshold) (h255 : parts ≤ 255)
    (hperm : xCoordinates.Perm ((List.range 255).map Int.ofNat))
    (sel : List Nat) (hnd : sel.Nodup) (hsel : ∀ i ∈ sel, i < parts.toNat)
    (hlen : threshold.toNat ≤ sel.length) :
    Combine gfTables (sel.map (shareOf gfTables secret threshold xCoordinates rand))
      = .ok secret := by
  have hpos : 0 < secret.length := List.length_pos.mpr hs
  have hL : ∀ p ∈ sel.map (shareOf gfTables secret threshold xCoordinates rand),
      p.length = secret.length + 1 := by
    intro p hp
    rw [List.mem_map] at hp
    obtain ⟨i, _, rfl⟩ := hp
    exact shareOf_length _ _ _ _ _ i
  have htags : tagsOf (sel.map (shareOf gfTables secret threshold xCoordinates rand))
      (secret.length + 1) = sel.map (xOf xCoordinates) := by
    unfold tagsOf
    rw [List.map_map]
    apply List.map_congr_left
    intro i _
    exact shareOf_tag _ _ _ _ _ i
  have hnodup : (sel.map (xOf xCoordinates)).Nodup := by
    apply List.Nodup.map_on _ hnd
    intro i hi j hj hij
    exact xOf_inj xCoordinates hperm i j (by have := hsel i hi; omega)
      (by have := hsel j hj; omega) hij
  have hcomb := (Combine_eq gfTables (sel.map (shareOf gfTables secret threshold xCoordinates rand))
    (secret.length + 1) (by rw [List.length_map]; omega) hL (by omega)).1
    (by rw [htags]; exact hnodup)
  rw [hcomb, htags]
  congr 1
  conv_rhs => rw [list_eq_map_range secret 0]
  apply map_range_congr
  intro idx hidx
  have hidx2 : idx < secret.length := hidx
  have hcol : columnOf (sel.map (shareOf gfTables secret threshold xCoordinates rand)) idx
      = (sel.map (xOf xCoordinates)).map
          (fun a => hornerVal gfTables (polyOf secret threshold rand idx) a) := by
    unfold columnOf
    rw [List.map_map, List.map_map]
    apply List.map_congr_left
    intro i _
    exact shareOf_byte _ _ _ _ _ i idx hidx2
  rw [hcol, interpVal_hornerVal _ _ _ hnodup (by
    rw [polyOf_length, List.length_map]; omega), polyOf_at_zero]

theorem getD_map_range {α : Type} (n i : Nat) (f : Nat → α) (d : α) (h : i < n) :
    ((List.range n).map f).getD i d = f i := by
  simp [List.getD_eq_getElem?_getD, h]

/-- Claim C1 (round trip): for a non-empty secret and `2 ≤ threshold ≤ parts ≤ 255`, for every
permutation of `0..254` drawn as x-coordinates and every choice of the random coefficients,
`Split` returns shares, and `Combine` of any `threshold` of them (chosen by pairwise distinct
indices, in any order) returns exactly the secret; the tables are the package's tables. -/
theorem C1_round_trip (secret : List U8) (parts threshold : Int) (xCoordinates : List Int)
    (coeffs : Nat → Nat → U8)
    (hs : secret ≠ []) (h2 : 2 ≤ threshold) (h1 : threshold ≤ parts) (h255 : parts ≤ 255)
    (hperm : xCoordinates.Perm ((List.range 255).map Int.ofNat)) :
    ∃ shares, Split gfTables secret parts threshold xCoordinates (fun idx => .ok (coeffs idx))
        = .ok shares ∧
      ∀ sel : List Nat, sel.Nodup → (∀ i ∈ sel, i < shares.length) →
        (sel.length : Int) = threshold →
        Combine gfTables (sel.map (fun i => shares.getD i [])) = .ok secret := by
  have hx : parts.toNat ≤ xCoordinates.length := by
    rw [perm_length xCoordinates hperm]; omega
  refine ⟨_, Split_eq gfTables secret parts threshold xCoordinates _ h1 h255 h2 hs hx
    (fun idx _ => ⟨coeffs idx, rfl⟩), ?_⟩
  intro sel hnd hsel hlen
  have hsel2 : ∀ i ∈ sel, i < parts.toNat := by
    intro i hi
    simpa using hsel i hi
  have hmap : sel.map (fun i => ((List.range parts.toNat).map
      (shareOf gfTables secret threshold xCoordinates (fun idx => .ok (coeffs idx)))).getD i [])
      = sel.map (shareOf gfTables secret threshold xCoordinates
          (fun idx => .ok (coeffs idx))) := by
    apply List.map_congr_left
    intro i hi
    exact getD_map_range _ _ _ _ (hsel2 i hi)
  rw [hmap]
  exact combine_shares secret parts threshold xCoordinates _ hs h2 h255 hperm sel hnd hsel2
    (by omega)

/-- Witness of C1: the secret `[0x41, 0x42]` split into 5 shares with threshold 3. -/
theorem C1_round_trip_witness :
    ∃ shares, Split gfTables [0x41, 0x42] 5 3 identityPerm (fun idx => .ok (sampleCoeffs idx))
        = .ok shares ∧
      ∀ sel : List Nat, sel.Nodup → (∀ i ∈ sel, i < shares.length) →
        (sel.length : Int) = 3 →
        Combine gfTables (sel.map (fun i => shares.getD i [])) = .ok [0x41, 0x42] :=
  C1_round_trip [0x41, 0x42] 5 3 identityPerm sampleCoeffs
    (by decide) (by decide) (by decide) (by decide) (List.Perm.refl _)

/-! ## The outcomes of `Combine` -/

theorem getLast_eq_tag (parts : List (List U8)) (L : Nat) (hL : ∀ p ∈ parts, p.length = L)
    (h1 : 1 ≤ L) (i : Nat) (hi : i < parts.length) :
    (parts.getD i []).getLast? = some ((tagsOf parts L).getD i 0) := by
  have hpl : (parts.get ⟨i, hi⟩).length = L := hL _ (List.get_mem parts i hi)
  have hlt : L - 1 < (parts.get ⟨i, hi⟩).length := by omega
  rw [tagsOf_getD parts L i hi, getD_eq_get _ _ _ hi, List.getLast?_eq_getElem?, hpl,
    getD_eq_get _ _ _ hlt, List.getElem?_eq_getElem hlt]
  rfl

theorem tags_dup_iff (parts : List (List U8)) (L : Nat) (hL : ∀ p ∈ parts, p.length = L)
    (h1 : 1 ≤ L) : (¬ (tagsOf parts L).Nodup) ↔ sameTag parts := by
  have hlen : (tagsOf parts L).length = parts.length := by simp [tagsOf]
  rw [List.nodup_iff_getElem?_ne_getElem?]
  constructor
  · intro h
    push_neg at h
    obtain ⟨i, j, hij, hj, heq⟩ := h
    rw [hlen] at hj
    have hi : i < parts.length := by omega
    refine ⟨i, j, (tagsOf parts L).getD i 0, hij, hj, getLast_eq_tag parts L hL h1 i hi, ?_⟩
    rw [getLast_eq_tag parts L hL h1 j hj, List.getD_eq_getElem?_getD,
      List.getD_eq_getElem?_getD, heq]
  · rintro ⟨i, j, b, hij, hj, hbi, hbj⟩ hnd
    have hi : i < parts.length := by omega
    rw [getLast_eq_tag parts L hL h1 i hi] at hbi
    rw [getLast_eq_tag parts L hL h1 j hj] at hbj
    apply hnd i j hij (by rw [hlen]; exact hj)
    rw [List.getElem?_eq_getElem (by rw [hlen]; exact hi),
      List.getElem?_eq_getElem (by rw [hlen]; exact hj)]
    rw [getD_eq_get _ _ _ (by rw [hlen]; exact hi)] at hbi
    rw [getD_eq_get _ _ _ (by rw [hlen]; exact hj)] at hbj
    have e1 := Option.some.inj hbi
    have e2 := Option.some.inj hbj
    simp only [List.get_eq_getElem] at e1 e2
    rw [e1, e2]

theorem all_lengths_of_index (parts : List (List U8)) (h0 : 0 < parts.length)
    (h : ∀ i, 1 ≤ i → i < parts.length →
      (parts.getD i []).length = (parts.getD 0 []).length) :
    ∀ p ∈ parts, p.length = (parts.getD 0 []).length := by
  intro p hp
  obtain ⟨i, hi, rfl⟩ := List.getElem_of_mem hp
  by_cases hi0 : i = 0
  · subst hi0
    rw [getD_eq_get _ _ _ h0]
    rfl
  · have := h i (by omega) hi
    rw [getD_eq_get _ _ _ hi] at this
    exact this

/-- The five ways in which `Combine` ends, with the condition of each. -/
theorem Combine_cases (T : Tables) (parts : List (List U8)) :
    (parts.length < 2 ∧ Combine T parts
        = .error "less than two parts cannot be used to reconstruct the secret") ∨
    (2 ≤ parts.length ∧ (parts.getD 0 []).length < 2 ∧
      Combine T parts = .error "parts must be at least two bytes") ∨
    (2 ≤ parts.length ∧ 2 ≤ (parts.getD 0 []).length ∧
      (¬ ∀ i, 1 ≤ i → i < parts.length →
        (parts.getD i []).length = (parts.getD 0 []).length) ∧
      Combine T parts = .error "all parts must be the same length") ∨
    (2 ≤ parts.length ∧ 2 ≤ (parts.getD 0 []).length ∧
      (∀ p ∈ parts, p.length = (parts.getD 0 []).length) ∧ sameTag parts ∧
      Combine T parts = .error "duplicate part detected") ∨
    (2 ≤ parts.length ∧ 2 ≤ (parts.getD 0 []).length ∧
      (∀ p ∈ parts, p.length = (parts.getD 0 []).length) ∧ ¬ sameTag parts ∧
      Combine T parts = .ok ((List.range ((parts.getD 0 []).length - 1)).map
        (fun idx => interpVal T (tagsOf parts (parts.getD 0 []).length)
          (columnOf parts idx) 0))) := by
  by_cases hn : parts.length < 2
  · exact Or.inl ⟨hn, Combine_few T parts hn⟩
  have hn2 : 2 ≤ parts.length := by omega
  by_cases hf : (parts.getD 0 []).length < 2
  · exact Or.inr (Or.inl ⟨hn2, hf, Combine_first_short T parts hn2 hf⟩)
  have hf2 : 2 ≤ (parts.getD 0 []).length := by omega
  by_cases hall : ∀ i, 1 ≤ i → i < parts.length →
      (parts.getD i []).length = (parts.getD 0 []).length
  · have hL := all_lengths_of_index parts (by omega) hall
    obtain ⟨hok, herr⟩ := Combine_eq T parts (parts.getD 0 []).length hn2 hL hf2
    have hiff := tags_dup_iff parts (parts.getD 0 []).length hL (by omega)
    by_cases hdup : sameTag parts
    · exact Or.inr (Or.inr (Or.inr (Or.inl ⟨hn2, hf2, hL, hdup, herr (hiff.mpr hdup)⟩)))
    · have hnd : (tagsOf parts (parts.getD 0 []).length).Nodup := by
        by_contra hcon
        exact hdup (hiff.mp hcon)
      exact Or.inr (Or.inr (Or.inr (Or.inr ⟨hn2, hf2, hL, hdup, hok hnd⟩)))
  · exact Or.inr (Or.inr (Or.inl ⟨hn2, hf2, hall, Combine_mismatch T parts hn2 hf2 hall⟩))

/-! ## The claims about `Split` -/

/-- Claim C2 (share shape): whenever `Split` succeeds it returns exactly `parts` shares and every
share has length `len(secret) + ShareOverhead`, that is `len(secret) + 1`. -/
theorem C2_share_shape (T : Tables) (secret : List U8) (parts threshold : Int)
    (xCoordinates : List Int) (rand : Nat → Except String (Nat → U8))
    (shares : List (List U8))
    (h : Split T secret parts threshold xCoordinates rand = .ok shares) :
    (shares.length : Int) = parts ∧ ∀ s ∈ shares, s.length = secret.length + ShareOverhead := by
  obtain ⟨h1, _, h3, _, _, _⟩ :=
    Split_ok_imp T secret parts threshold xCoordinates rand shares h
  rw [Split_ok_eq T secret parts threshold xCoordinates rand shares h]
  constructor
  · rw [List.length_map, List.length_range]
    omega
  · intro s hs
    rw [List.mem_map] at hs
    obtain ⟨i, _, rfl⟩ := hs
    exact shareOf_length _ _ _ _ _ i

set_option maxRecDepth 100000 in
/-- Witness of C2: `Split([0x41, 0x42], 5, 3)` returns 5 shares, each of length 3. -/
theorem C2_share_shape_witness :
    (([[84, 93, 1], [11, 194, 2], [30, 221, 3], [78, 151, 4], [91, 136, 5]] :
        List (List U8)).length : Int) = 5 ∧
      ∀ s ∈ ([[84, 93, 1], [11, 194, 2], [30, 221, 3], [78, 151, 4], [91, 136, 5]] :
        List (List U8)), s.length = ([0x41, 0x42] : List U8).length + ShareOverhead :=
  C2_share_shape gfTables [0x41, 0x42] 5 3 identityPerm sampleRand _ (by decide)

/-- Claim C3 (distinct non-zero x-coordinates): for every successful `Split`, the x-coordinates
being any permutation of `0..254`, the trailing bytes of the shares are pairwise distinct and lie
in `[1, 255]`; the trailing byte of share `i` is `uint8(xCoordinates[i]) + 1`, whose value is
`xCoordinates[i] + 1` without wrapping, so no share carries the tag 0. -/
theorem C3_distinct_tags (T : Tables) (secret : List U8) (parts threshold : Int)
    (xCoordinates : List Int) (rand : Nat → Except String (Nat → U8))
    (shares : List (List U8))
    (hperm : xCoordinates.Perm ((List.range 255).map Int.ofNat))
    (h : Split T secret parts threshold xCoordinates rand = .ok shares) :
    (shares.map (fun s => s.getLast?)).Nodup ∧
    (∀ s ∈ shares, ∃ b : U8, s.getLast? = some b ∧ 1 ≤ b.val ∧ b.val ≤ 255) ∧
    (∀ i, i < shares.length →
      (shares.getD i []).getLast? = some (toU8 (xCoordinates.getD i 0) + 1) ∧
      ((toU8 (xCoordinates.getD i 0) + 1 : U8).val : Int) = xCoordinates.getD i 0 + 1) := by
  obtain ⟨h1, h2, h3, _, _, _⟩ :=
    Split_ok_imp T secret parts threshold xCoordinates rand shares h
  rw [Split_ok_eq T secret parts threshold xCoordinates rand shares h]
  refine ⟨?_, ?_, ?_⟩
  · rw [List.map_map]
    apply List.Nodup.map_on _ (List.nodup_range _)
    intro i hi j hj hij
    rw [List.mem_range] at hi hj
    simp only [Function.comp, shareOf_last] at hij
    exact xOf_inj xCoordinates hperm i j (by omega) (by omega) (Option.some.inj hij)
  · intro s hs
    rw [List.mem_map] at hs
    obtain ⟨i, hi, rfl⟩ := hs
    rw [List.mem_range] at hi
    refine ⟨xOf xCoordinates i, shareOf_last _ _ _ _ _ i, ?_, ?_⟩
    · have e1 := xOf_val xCoordinates hperm i (by omega)
      have e2 := perm_bounds xCoordinates hperm i (by omega)
      omega
    · have := (xOf xCoordinates i).isLt
      omega
  · intro i hi
    rw [List.length_map, List.length_range] at hi
    rw [getD_map_range _ _ _ _ hi]
    exact ⟨shareOf_last _ _ _ _ _ i, xOf_val xCoordinates hperm i (by omega)⟩

set_option maxRecDepth 100000 in
/-- Witness of C3: the five shares of `Split([0x41, 0x42], 5, 3)` carry the tags 1 to 5. -/
theorem C3_distinct_tags_witness :
    (([[84, 93, 1], [11, 194, 2], [30, 221, 3], [78, 151, 4], [91, 136, 5]] :
        List (List U8)).map (fun s => s.getLast?)).Nodup ∧
    (∀ s ∈ ([[84, 93, 1], [11, 194, 2], [30, 221, 3], [78, 151, 4], [91, 136, 5]] :
        List (List U8)), ∃ b : U8, s.getLast? = some b ∧ 1 ≤ b.val ∧ b.val ≤ 255) ∧
    (∀ i, i < ([[84, 93, 1], [11, 194, 2], [30, 221, 3], [78, 151, 4], [91, 136, 5]] :
        List (List U8)).length →
      (([[84, 93, 1], [11, 194, 2], [30, 221, 3], [78, 151, 4], [91, 136, 5]] :
        List (List U8)).getD i []).getLast? = some (toU8 (identityPerm.getD i 0) + 1) ∧
      ((toU8 (identityPerm.getD i 0) + 1 : U8).val : Int) = identityPerm.getD i 0 + 1) :=
  C3_distinct_tags gfTables [0x41, 0x42] 5 3 identityPerm sampleRand _ (List.Perm.refl _)
    (by decide)

theorem Split_guard_error (T : Tables) (secret : List U8) (parts threshold : Int)
    (xCoordinates : List Int) (rand : Nat → Except String (Nat → U8))
    (h : parts < threshold ∨ parts > 255 ∨ threshold < 2 ∨ threshold > 255 ∨ secret = []) :
    ∃ msg, Split T secret parts threshold xCoordinates rand = .error msg := by
  unfold Split
  by_cases g1 : parts < threshold
  · exact ⟨_, if_pos g1⟩
  rw [if_neg g1]
  by_cases g2 : parts > 255
  · exact ⟨_, if_pos g2⟩
  rw [if_neg g2]
  by_cases g3 : threshold < 2
  · exact ⟨_, if_pos g3⟩
  rw [if_neg g3]
  by_cases g4 : threshold > 255
  · exact ⟨_, if_pos g4⟩
  rw [if_neg g4]
  by_cases g5 : secret.length = 0
  · exact ⟨_, if_pos g5⟩
  · exfalso
    rcases h with h | h | h | h | h
    · exact g1 h
    · exact g2 h
    · exact g3 h
    · exact g4 h
    · exact g5 (by rw [h]; rfl)

/-- Claim C4 (`Split` fails exactly on its precondition violations): when the entropy source does
not fail (the permutation has its 255 entries and every read of random bytes succeeds), `Split`
returns an error if and only if `parts < threshold`, `parts > 255`, `threshold < 2`,
`threshold > 255` or the secret is empty; an error carries no shares, and in every other case
`Split` returns shares, without error and without panic. -/
theorem C4_split_fails_iff (T : Tables) (secret : List U8) (parts threshold : Int)
    (xCoordinates : List Int) (rand : Nat → Except String (Nat → U8))
    (hx : xCoordinates.length = 255) (hr : ∀ idx, ∃ bytes, rand idx = .ok bytes) :
    ((∃ msg, Split T secret parts threshold xCoordinates rand = .error msg) ↔
      (parts < threshold ∨ parts > 255 ∨ threshold < 2 ∨ threshold > 255 ∨ secret = [])) ∧
    ((∃ msg, Split T secret parts threshold xCoordinates rand = .error msg) ∨
      (∃ shares, Split T secret parts threshold xCoordinates rand = .ok shares)) := by
  by_cases hc : parts < threshold ∨ parts > 255 ∨ threshold < 2 ∨ threshold > 255 ∨ secret = []
  · have he := Split_guard_error T secret parts threshold xCoordinates rand hc
    exact ⟨⟨fun _ => hc, fun _ => he⟩, Or.inl he⟩
  · have hok := Split_eq T secret parts threshold xCoordinates rand (by omega) (by omega)
      (by omega) (fun hnil => hc (Or.inr (Or.inr (Or.inr (Or.inr hnil)))))
      (by rw [hx]; omega) (fun idx _ => hr idx)
    refine ⟨⟨?_, fun h => absurd h hc⟩, Or.inr ⟨_, hok⟩⟩
    rintro ⟨msg, hmsg⟩
    rw [hok] at hmsg
    exact Result.noConfusion hmsg

/-- Witness of C4: `Split([0x41, 0x42], 5, 3)` with a working entropy source. -/
theorem C4_split_fails_iff_witness :
    ((∃ msg, Split gfTables [0x41, 0x42] 5 3 identityPerm sampleRand = .error msg) ↔
      ((5 : Int) < 3 ∨ (5 : Int) > 255 ∨ (3 : Int) < 2 ∨ (3 : Int) > 255
        ∨ ([0x41, 0x42] : List U8) = [])) ∧
    ((∃ msg, Split gfTables [0x41, 0x42] 5 3 identityPerm sampleRand = .error msg) ∨
      (∃ shares, Split gfTables [0x41, 0x42] 5 3 identityPerm sampleRand = .ok shares)) :=
  C4_split_fails_iff gfTables [0x41, 0x42] 5 3 identityPerm sampleRand
    (by simp [identityPerm])
    (fun idx => ⟨sampleCoeffs idx, rfl⟩)

/-- Claim C5 (boundary rejects): for every secret, so for every non-empty one, `Split(secret, 1, 1)`
fails with "threshold must be at least 2" and `Split(secret, 256, 2)` fails with
"parts cannot exceed 255"; `Split` of the empty secret with `parts = 3`, `threshold = 2` fails
with "cannot split an empty secret". -/
theorem C5_boundary_rejects (T : Tables) (secret : List U8) (xCoordinates : List Int)
    (rand : Nat → Except String (Nat → U8)) :
    Split T secret 1 1 xCoordinates rand = .error "threshold must be at least 2" ∧
    Split T secret 256 2 xCoordinates rand = .error "parts cannot exceed 255" ∧
    Split T [] 3 2 xCoordinates rand = .error "cannot split an empty secret" := by
  refine ⟨?_, ?_, ?_⟩
  · unfold Split
    rw [if_neg (by decide), if_neg (by decide), if_pos (by decide)]
  · unfold Split
    rw [if_neg (by decide), if_pos (by decide)]
  · unfold Split
    rw [if_neg (by decide), if_neg (by decide), if_neg (by decide), if_neg (by decide),
      if_pos (show ([] : List U8).length = 0 from rfl)]

/-- Claim C6 (threshold too high), evaluated on the code: with `threshold = 256` the call
`Split(secret, 300, 256)` fails with "parts cannot exceed 255" and `Split(secret, 255, 256)`
fails with "parts cannot be less than threshold"; neither reports
"threshold cannot exceed 255". -/
theorem C6_threshold_guard_unreachable :
    Split gfTables [0x41] 300 256 identityPerm sampleRand = .error "parts cannot exceed 255" ∧
    Split gfTables [0x41] 255 256 identityPerm sampleRand
      = .error "parts cannot be less than threshold" ∧
    Split gfTables [0x41] 300 256 identityPerm sampleRand
      ≠ .error "threshold cannot exceed 255" ∧
    Split gfTables [0x41] 255 256 identityPerm sampleRand
      ≠ .error "threshold cannot exceed 255" := by
  have e1 : Split gfTables [0x41] 300 256 identityPerm sampleRand
      = .error "parts cannot exceed 255" := by
    unfold Split
    rw [if_neg (by decide), if_pos (by decide)]
  have e2 : Split gfTables [0x41] 255 256 identityPerm sampleRand
      = .error "parts cannot be less than threshold" := by
    unfold Split
    rw [if_pos (by decide)]
  refine ⟨e1, e2, ?_, ?_⟩
  · rw [e1]
    decide
  · rw [e2]
    decide

/-! ## The claims about `Combine` -/

/-- Claim C7 (`Combine` fails exactly on malformed share lists): `Combine` returns an error if and
only if fewer than 2 shares are supplied, or some share is shorter than 2 bytes, or two shares
differ in length, or two shares carry the same trailing byte; on every other list, whatever split
the shares come from, it returns a byte sequence, with no error and no panic. This holds for all
contents of the tables. -/
theorem C7_combine_fails_iff (T : Tables) (parts : List (List U8)) :
    ((∃ msg, Combine T parts = .error msg) ↔
      (parts.length < 2 ∨ (∃ p ∈ parts, p.length < 2) ∨
        (∃ p ∈ parts, ∃ q ∈ parts, p.length ≠ q.length) ∨ sameTag parts)) ∧
    ((∃ msg, Combine T parts = .error msg) ∨ (∃ secret, Combine T parts = .ok secret)) := by
  rcases Combine_cases T parts with ⟨hn, he⟩ | ⟨hn, hf, he⟩ | ⟨hn, hf, hall, he⟩ |
    ⟨hn, hf, hL, hdup, he⟩ | ⟨hn, hf, hL, hdup, hok⟩
  · exact ⟨⟨fun _ => Or.inl hn, fun _ => ⟨_, he⟩⟩, Or.inl ⟨_, he⟩⟩
  · have h0 : 0 < parts.length := by omega
    refine ⟨⟨fun _ => Or.inr (Or.inl ⟨parts.getD 0 [], ?_, hf⟩), fun _ => ⟨_, he⟩⟩,
      Or.inl ⟨_, he⟩⟩
    rw [getD_eq_get _ _ _ h0]
    exact List.get_mem _ _ _
  · have h0 : 0 < parts.length := by omega
    refine ⟨⟨fun _ => Or.inr (Or.inr (Or.inl ?_)), fun _ => ⟨_, he⟩⟩, Or.inl ⟨_, he⟩⟩
    by_contra hcon
    push_neg at hcon
    apply hall
    intro i _ hi
    apply hcon
    · rw [getD_eq_get _ _ _ hi]
      exact List.get_mem _ _ _
    · rw [getD_eq_get _ _ _ h0]
      exact List.get_mem _ _ _
  · exact ⟨⟨fun _ => Or.inr (Or.inr (Or.inr hdup)), fun _ => ⟨_, he⟩⟩, Or.inl ⟨_, he⟩⟩
  · refine ⟨⟨?_, ?_⟩, Or.inr ⟨_, hok⟩⟩
    · rintro ⟨msg, hmsg⟩
      rw [hok] at hmsg
      exact Result.noConfusion hmsg
    · rintro (h | ⟨p, hp, hlt⟩ | ⟨p, hp, q, hq, hne⟩ | h)
      · omega
      · have := hL p hp
        omega
      · exact absurd ((hL p hp).trans (hL q hq).symm) hne
      · exact absurd h hdup

/-- Claim C8 (duplicate detection): on every share list in which two entries carry the same
trailing byte `Combine` never returns a secret, and when moreover all the shares have one length
`L ≥ 2` it returns the error "duplicate part detected". -/
theorem C8_duplicate_detection (T : Tables) (parts : List (List U8)) (hdup : sameTag parts) :
    (∀ secret, Combine T parts ≠ .ok secret) ∧
    ((∃ L, 2 ≤ L ∧ ∀ p ∈ parts, p.length = L) →
      Combine T parts = .error "duplicate part detected") := by
  have hlen : 2 ≤ parts.length := by
    obtain ⟨i, j, _, hij, hj, _, _⟩ := hdup
    omega
  have h0 : 0 < parts.length := by omega
  have hmem0 : parts.getD 0 [] ∈ parts := by
    rw [getD_eq_get _ _ _ h0]
    exact List.get_mem _ _ _
  rcases Combine_cases T parts with ⟨hn, _⟩ | ⟨_, hf, he⟩ | ⟨_, hf, hall, he⟩ |
    ⟨_, _, _, _, he⟩ | ⟨_, _, _, hnd, _⟩
  · omega
  · refine ⟨fun s hs => ?_, ?_⟩
    · rw [he] at hs
      exact Result.noConfusion hs
    · rintro ⟨L, hL2, hL⟩
      have := hL _ hmem0
      omega
  · refine ⟨fun s hs => ?_, ?_⟩
    · rw [he] at hs
      exact Result.noConfusion hs
    · rintro ⟨L, _, hL⟩
      exfalso
      apply hall
      intro i _ hi
      have hmem : parts.getD i [] ∈ parts := by
        rw [getD_eq_get _ _ _ hi]
        exact List.get_mem _ _ _
      rw [hL _ hmem, hL _ hmem0]
  · refine ⟨fun s hs => ?_, fun _ => he⟩
    rw [he] at hs
    exact Result.noConfusion hs
  · exact absurd hdup hnd

/-- Witness of C8: two shares of length 3 that both end in the byte 3. -/
theorem C8_duplicate_detection_witness :
    (∀ secret, Combine gfTables [[1, 2, 3], [4, 5, 3]] ≠ .ok secret) ∧
    ((∃ L, 2 ≤ L ∧ ∀ p ∈ ([[1, 2, 3], [4, 5, 3]] : List (List U8)), p.length = L) →
      Combine gfTables [[1, 2, 3], [4, 5, 3]] = .error "duplicate part detected") :=
  C8_duplicate_detection gfTables [[1, 2, 3], [4, 5, 3]]
    ⟨0, 1, 3, by decide, by decide, rfl, rfl⟩

set_option maxRecDepth 100000 in
/-- Counterexample to C9 as stated: in the list `[[1, 2, 3], [1]]` of two shares the second
share is shorter than 2 bytes, and `Combine` fails with "all parts must be the same length",
not with "parts must be at least two bytes". -/
theorem C9_counterexample :
    2 ≤ ([[1, 2, 3], [1]] : List (List U8)).length ∧
    (∃ p ∈ ([[1, 2, 3], [1]] : List (List U8)), p.length < 2) ∧
    Combine gfTables [[1, 2, 3], [1]] = .error "all parts must be the same length" ∧
    Combine gfTables [[1, 2, 3], [1]] ≠ .error "parts must be at least two bytes" := by
  decide

/-- Claim C9, amended: on every list of at least two shares in which some share is shorter than
2 bytes `Combine` fails; the error is "parts must be at least two bytes" when the first share is
shorter than 2 bytes, and "all parts must be the same length" when the first share has at least
2 bytes. -/
theorem C9_short_share (T : Tables) (parts : List (List U8)) (hn : 2 ≤ parts.length)
    (hshort : ∃ p ∈ parts, p.length < 2) :
    ((parts.getD 0 []).length < 2 →
      Combine T parts = .error "parts must be at least two bytes") ∧
    (2 ≤ (parts.getD 0 []).length →
      Combine T parts = .error "all parts must be the same length") := by
  refine ⟨fun hf => Combine_first_short T parts hn hf, fun hf => ?_⟩
  apply Combine_mismatch T parts hn hf
  intro hall
  obtain ⟨p, hp, hlt⟩ := hshort
  have := all_lengths_of_index parts (by omega) hall p hp
  omega

/-- Witness of C9, amended: the lists `[[1], [1, 2, 3]]` and `[[1, 2, 3], [1]]`. -/
theorem C9_short_share_witness :
    (((([[1], [1, 2, 3]] : List (List U8)).getD 0 []).length < 2 →
      Combine gfTables [[1], [1, 2, 3]] = .error "parts must be at least two bytes") ∧
    (2 ≤ (([[1], [1, 2, 3]] : List (List U8)).getD 0 []).length →
      Combine gfTables [[1], [1, 2, 3]] = .error "all parts must be the same length")) ∧
    (((([[1, 2, 3], [1]] : List (List U8)).getD 0 []).length < 2 →
      Combine gfTables [[1, 2, 3], [1]] = .error "parts must be at least two bytes") ∧
    (2 ≤ (([[1, 2, 3], [1]] : List (List U8)).getD 0 []).length →
      Combine gfTables [[1, 2, 3], [1]] = .error "all parts must be the same length")) :=
  ⟨C9_short_share gfTables [[1], [1, 2, 3]] (by decide) ⟨[1], by decide, by decide⟩,
   C9_short_share gfTables [[1, 2, 3], [1]] (by decide) ⟨[1], by decide, by decide⟩⟩

/-- Claim C10 (output length): whenever `Combine` succeeds, the supplied shares have one common
length `L` and the returned secret has length exactly `L - 1`. -/
theorem C10_output_length (T : Tables) (parts : List (List U8)) (secret : List U8)
    (h : Combine T parts = .ok secret) :
    ∃ L, (∀ p ∈ parts, p.length = L) ∧ 2 ≤ L ∧ secret.length = L - 1 := by
  rcases Combine_cases T parts with ⟨_, he⟩ | ⟨_, _, he⟩ | ⟨_, _, _, he⟩ |
    ⟨_, _, _, _, he⟩ | ⟨_, hf, hL, _, hok⟩
  · rw [he] at h
    exact Result.noConfusion h
  · rw [he] at h
    exact Result.noConfusion h
  · rw [he] at h
    exact Result.noConfusion h
  · rw [he] at h
    exact Result.noConfusion h
  · rw [hok] at h
    refine ⟨(parts.getD 0 []).length, hL, hf, ?_⟩
    rw [← Result.ok.inj h]
    simp

set_option maxRecDepth 100000 in
/-- Witness of C10: three shares of length 3 combine to the secret `[0x41, 0x42]` of length 2. -/
theorem C10_output_length_witness :
    ∃ L, (∀ p ∈ ([[84, 93, 1], [30, 221, 3], [91, 136, 5]] : List (List U8)), p.length = L) ∧
      2 ≤ L ∧ ([0x41, 0x42] : List U8).length = L - 1 :=
  C10_output_length gfTables [[84, 93, 1], [30, 221, 3], [91, 136, 5]] [0x41, 0x42] (by decide)

/-! ## Division by zero, zero absorption and table indices -/

theorem not_sameTag_of_nodup (parts : List (List U8))
    (h : (parts.map (fun p => p.getLast?)).Nodup) : ¬ sameTag parts := by
  rintro ⟨i, j, b, hij, hj, hbi, hbj⟩
  have hi : i < parts.length := by omega
  rw [List.nodup_iff_getElem?_ne_getElem?] at h
  apply h i j hij (by simpa using hj)
  rw [getD_eq_get _ _ _ hi] at hbi
  rw [getD_eq_get _ _ _ hj] at hbj
  simp only [List.get_eq_getElem] at hbi hbj
  simp [List.getElem?_eq_getElem hi, List.getElem?_eq_getElem hj, hbi, hbj]

/-- Claim C11 (divide by zero is unreachable from `Combine`): on every share list that passes the
validation of `Combine` (at least 2 shares, one common length `L ≥ 2`, pairwise distinct trailing
bytes) the x-samples are the trailing bytes, every denominator `xSamples[i] XOR xSamples[j]` with
`i ≠ j` is non-zero, so `div` does not panic on it, every interpolation returns normally, and
`Combine` ends without any panic. This holds for all contents of the tables. -/
theorem C11_no_divide_by_zero (T : Tables) (parts : List (List U8)) (L : Nat)
    (hn : 2 ≤ parts.length) (hL : ∀ p ∈ parts, p.length = L) (h2 : 2 ≤ L)
    (hdist : (parts.map (fun p => p.getLast?)).Nodup) :
    (∀ i, i < parts.length →
      (parts.getD i []).getLast? = some ((tagsOf parts L).getD i 0)) ∧
    (∀ i j, i < parts.length → j < parts.length → i ≠ j →
      add ((tagsOf parts L).getD i 0) ((tagsOf parts L).getD j 0) ≠ 0 ∧
      ∀ num, ∃ v, div T num (add ((tagsOf parts L).getD i 0) ((tagsOf parts L).getD j 0))
        = .ok v) ∧
    (∀ idx x, ∃ v, interpolatePolynomial T (tagsOf parts L) (columnOf parts idx) x = .ok v) ∧
    (∃ secret, Combine T parts = .ok secret) ∧
    (∀ msg, Combine T parts ≠ .fault msg) := by
  have hns := not_sameTag_of_nodup parts hdist
  have hnd : (tagsOf parts L).Nodup := by
    by_contra hcon
    exact hns ((tags_dup_iff parts L hL (by omega)).mp hcon)
  have hlen : (tagsOf parts L).length = parts.length := by simp [tagsOf]
  have hne : ∀ i j, i < parts.length → j < parts.length → i ≠ j →
      add ((tagsOf parts L).getD i 0) ((tagsOf parts L).getD j 0) ≠ 0 := by
    intro i j hi hj hij h0
    exact nodup_getD_ne _ hnd i j (by rw [hlen]; exact hi) (by rw [hlen]; exact hj) hij
      ((add_eq_zero_iff' _ _).mp h0)
  have hok := (Combine_eq T parts L hn hL h2).1 hnd
  refine ⟨fun i hi => getLast_eq_tag parts L hL (by omega) i hi, ?_, ?_, ⟨_, hok⟩, ?_⟩
  · intro i j hi hj hij
    exact ⟨hne i j hi hj hij, fun num => ⟨_, div_eq T num _ (hne i j hi hj hij)⟩⟩
  · intro idx x
    exact ⟨_, interpolatePolynomial_eq T _ _ x hnd (by simp [tagsOf, columnOf])⟩
  · intro msg hmsg
    rw [hok] at hmsg
    exact Result.noConfusion hmsg

/-- Witness of C11: three shares of `Split([0x41, 0x42], 5, 3)`, with the tags 1, 3 and 5. -/
theorem C11_no_divide_by_zero_witness :
    (∀ i, i < ([[84, 93, 1], [30, 221, 3], [91, 136, 5]] : List (List U8)).length →
      (([[84, 93, 1], [30, 221, 3], [91, 136, 5]] : List (List U8)).getD i []).getLast?
        = some ((tagsOf [[84, 93, 1], [30, 221, 3], [91, 136, 5]] 3).getD i 0)) ∧
    (∀ i j, i < ([[84, 93, 1], [30, 221, 3], [91, 136, 5]] : List (List U8)).length →
      j < ([[84, 93, 1], [30, 221, 3], [91, 136, 5]] : List (List U8)).length → i ≠ j →
      add ((tagsOf [[84, 93, 1], [30, 221, 3], [91, 136, 5]] 3).getD i 0)
        ((tagsOf [[84, 93, 1], [30, 221, 3], [91, 136, 5]] 3).getD j 0) ≠ 0 ∧
      ∀ num, ∃ v, div gfTables num
        (add ((tagsOf [[84, 93, 1], [30, 221, 3], [91, 136, 5]] 3).getD i 0)
          ((tagsOf [[84, 93, 1], [30, 221, 3], [91, 136, 5]] 3).getD j 0)) = .ok v) ∧
    (∀ idx x, ∃ v, interpolatePolynomial gfTables
      (tagsOf [[84, 93, 1], [30, 221, 3], [91, 136, 5]] 3)
      (columnOf [[84, 93, 1], [30, 221, 3], [91, 136, 5]] idx) x = .ok v) ∧
    (∃ secret, Combine gfTables [[84, 93, 1], [30, 221, 3], [91, 136, 5]] = .ok secret) ∧
    (∀ msg, Combine gfTables [[84, 93, 1], [30, 221, 3], [91, 136, 5]] ≠ .fault msg) :=
  C11_no_divide_by_zero gfTables [[84, 93, 1], [30, 221, 3], [91, 136, 5]] 3
    (by decide) (by decide) (by decide) (by decide)

/-- Claim C12 (zero absorption): for all contents of the tables and every byte `a`,
`mult(a, 0) = 0` and `mult(0, a) = 0`, and for every non-zero byte `b`, `div(0, b) = 0`:
the zero is forced by the final constant-time selection, not by the table entry. -/
theorem C12_zero_absorption (T : Tables) (a b : U8) (hb : b ≠ 0) :
    mult T a 0 = 0 ∧ mult T 0 a = 0 ∧ div T 0 b = .ok 0 := by
  refine ⟨mult_zero_right T a, mult_zero_left T a, ?_⟩
  rw [div_eq T 0 b hb, if_pos rfl]

/-- Witness of C12: the bytes `a = 0x53` and `b = 0xca` with the package's tables. -/
theorem C12_zero_absorption_witness :
    mult gfTables 0x53 0 = 0 ∧ mult gfTables 0 0x53 = 0 ∧ div gfTables 0 0xca = .ok 0 :=
  C12_zero_absorption gfTables 0x53 0xca (by decide)

/-- Claim C13 (division faults exactly on a zero divisor): for all bytes `a` and `b` and all
contents of the tables, `div(a, b)` panics with "divide by zero" if and only if `b = 0`, and it
returns a byte if and only if `b ≠ 0`. -/
theorem C13_div_faults_iff (T : Tables) (a b : U8) :
    (div T a b = .fault "divide by zero" ↔ b = 0) ∧
    ((∃ v, div T a b = .ok v) ↔ b ≠ 0) := by
  by_cases hb : b = 0
  · subst hb
    refine ⟨⟨fun _ => rfl, fun _ => div_zero T a⟩, ⟨?_, fun h => absurd rfl h⟩⟩
    rintro ⟨v, hv⟩
    rw [div_zero] at hv
    exact Result.noConfusion hv
  · refine ⟨⟨?_, fun h => absurd h hb⟩, ⟨fun _ => hb, fun _ => ⟨_, div_eq T a b hb⟩⟩⟩
    intro h
    rw [div_eq T a b hb] at h
    exact Result.noConfusion h

/-- Claim C20 (table lookups stay in bounds): for all bytes `a` and `b` and every 256-entry
byte-valued log table, the index `(log[a] + log[b]) % 255` of `mult` and the index
`((log[a] - log[b]) + 255) % 255` of `div` lie in `[0, 254]`, and the dividend
`(log[a] - log[b]) + 255` of the modulo in `div` is not negative. -/
theorem C20_table_index_bounds (T : Tables) (a b : U8) :
    (0 ≤ multIndex T a b ∧ multIndex T a b ≤ 254) ∧
    (0 ≤ divIndex T a b ∧ divIndex T a b ≤ 254) ∧
    0 ≤ (((T.logTable a).val : Int) - ((T.logTable b).val : Int)) + 255 := by
  have ha := (T.logTable a).isLt
  have hb := (T.logTable b).isLt
  have h1 := Nat.mod_lt ((T.logTable a).val + (T.logTable b).val) (show 0 < 255 by decide)
  have h2 := Nat.mod_lt ((T.logTable a).val + 255 - (T.logTable b).val)
    (show 0 < 255 by decide)
  rw [multIndex_eq, divIndex_eq]
  omega

/-! ## More on `Split` -/

/-- Claim C15 (`Split` writes polynomial evaluations): on every valid input with a working
entropy source, `uint8(threshold - 1) + 1` is `threshold` without overflow, and for every byte
position `idx` the polynomial `p` that `makePolynomial` returns has exactly `threshold`
coefficients, the first of which is `secret[idx]`; the byte `idx` of every share `i` is
`evaluate(p, x)` for that one polynomial `p` and the trailing byte `x` of share `i`. This holds
for all contents of the tables. -/
theorem C15_split_writes_evaluations (T : Tables) (secret : List U8) (parts threshold : Int)
    (xCoordinates : List Int) (rand : Nat → Except String (Nat → U8))
    (h1 : threshold ≤ parts) (h2 : parts ≤ 255) (h3 : 2 ≤ threshold) (h4 : secret ≠ [])
    (hx : xCoordinates.length = 255)
    (hr : ∀ idx, ∃ bytes, rand idx = .ok bytes) :
    ∃ shares, Split T secret parts threshold xCoordinates rand = .ok shares ∧
      (((toU8 (threshold - 1) + 1 : U8).val : Int) = threshold) ∧
      ∀ idx, idx < secret.length → ∃ p : polynomial,
        makePolynomial (secret.getD idx 0) (toU8 (threshold - 1)) (rand idx) = .ok p ∧
        (p.coefficients.length : Int) = threshold ∧
        p.coefficients.head? = some (secret.getD idx 0) ∧
        ∀ i, i < shares.length → ∃ x, (shares.getD i []).getLast? = some x ∧
          evaluate T p x = .ok ((shares.getD i []).getD idx 0) := by
  have hdeg := toU8_pred threshold h3 (by omega)
  refine ⟨_, Split_eq T secret parts threshold xCoordinates rand h1 h2 h3 h4
    (by rw [hx]; omega) (fun idx _ => hr idx), ?_, ?_⟩
  · rw [Fin.val_add, hdeg]
    have : ((1 : Fin 256).val) = 1 := rfl
    rw [this]
    omega
  · intro idx hidx
    obtain ⟨bytes, hb⟩ := hr idx
    have hpoly : coefficientsOf (secret.getD idx 0) (toU8 (threshold - 1)).val bytes
        = polyOf secret threshold rand idx := by
      unfold polyOf bytesOf
      rw [hb, hdeg]
    refine ⟨⟨polyOf secret threshold rand idx⟩, ?_, ?_, ?_, ?_⟩
    · rw [hb, makePolynomial_eq _ _ _ (by rw [hdeg]; omega), hpoly]
    · show ((polyOf secret threshold rand idx).length : Int) = threshold
      rw [polyOf_length]
      omega
    · simp [polyOf, coefficientsOf]
    · intro i hi
      rw [List.length_map, List.length_range] at hi
      rw [getD_map_range _ _ _ _ hi]
      refine ⟨xOf xCoordinates i, shareOf_last _ _ _ _ _ i, ?_⟩
      rw [evaluate_eq T _ _ (by simp [polyOf, coefficientsOf]), shareOf_byte _ _ _ _ _ i idx hidx]

/-- Witness of C15: `Split([0x41, 0x42], 5, 3)` with the package's tables. -/
theorem C15_split_writes_evaluations_witness :
    ∃ shares, Split gfTables [0x41, 0x42] 5 3 identityPerm sampleRand = .ok shares ∧
      (((toU8 (3 - 1) + 1 : U8).val : Int) = 3) ∧
      ∀ idx, idx < ([0x41, 0x42] : List U8).length → ∃ p : polynomial,
        makePolynomial (([0x41, 0x42] : List U8).getD idx 0) (toU8 (3 - 1)) (sampleRand idx)
          = .ok p ∧
        (p.coefficients.length : Int) = 3 ∧
        p.coefficients.head? = some (([0x41, 0x42] : List U8).getD idx 0) ∧
        ∀ i, i < shares.length → ∃ x, (shares.getD i []).getLast? = some x ∧
          evaluate gfTables p x = .ok ((shares.getD i []).getD idx 0) :=
  C15_split_writes_evaluations gfTables [0x41, 0x42] 5 3 identityPerm sampleRand
    (by decide) (by decide) (by decide) (by decide) (by simp [identityPerm])
    (fun idx => ⟨sampleCoeffs idx, rfl⟩)

/-- Claim C18 (more than `threshold` shares also reconstruct): for a non-empty secret,
`2 ≤ threshold ≤ parts ≤ 255`, every permutation of `0..254` as x-coordinates and every choice
of the random coefficients, `Combine` of any `k` shares of the output of `Split` with
`threshold ≤ k` (chosen by pairwise distinct indices, so `k ≤ parts`), and in particular of all
the `parts` shares, returns exactly the secret; the tables are the package's tables. -/
theorem C18_more_shares_reconstruct (secret : List U8) (parts threshold : Int)
    (xCoordinates : List Int) (coeffs : Nat → Nat → U8)
    (hs : secret ≠ []) (h2 : 2 ≤ threshold) (h1 : threshold ≤ parts) (h255 : parts ≤ 255)
    (hperm : xCoordinates.Perm ((List.range 255).map Int.ofNat)) :
    ∃ shares, Split gfTables secret parts threshold xCoordinates (fun idx => .ok (coeffs idx))
        = .ok shares ∧
      (∀ sel : List Nat, sel.Nodup → (∀ i ∈ sel, i < shares.length) →
        threshold ≤ (sel.length : Int) →
        (sel.length : Int) ≤ parts ∧
          Combine gfTables (sel.map (fun i => shares.getD i [])) = .ok secret) ∧
      Combine gfTables shares = .ok secret := by
  have hx : parts.toNat ≤ xCoordinates.length := by
    rw [perm_length xCoordinates hperm]; omega
  refine ⟨_, Split_eq gfTables secret parts threshold xCoordinates _ h1 h255 h2 hs hx
    (fun idx _ => ⟨coeffs idx, rfl⟩), ?_, ?_⟩
  · intro sel hnd hsel hlen
    have hsel2 : ∀ i ∈ sel, i < parts.toNat := by
      intro i hi
      simpa using hsel i hi
    have hsub : sel.length ≤ parts.toNat := by
      have hsubset : sel ⊆ List.range parts.toNat := by
        intro i hi
        exact List.mem_range.mpr (hsel2 i hi)
      have := (List.subperm_of_subset hnd hsubset).length_le
      simpa using this
    have hmap : sel.map (fun i => ((List.range parts.toNat).map
        (shareOf gfTables secret threshold xCoordinates (fun idx => .ok (coeffs idx)))).getD i [])
        = sel.map (shareOf gfTables secret threshold xCoordinates
            (fun idx => .ok (coeffs idx))) := by
      apply List.map_congr_left
      intro i hi
      exact getD_map_range _ _ _ _ (hsel2 i hi)
    refine ⟨by omega, ?_⟩
    rw [hmap]
    exact combine_shares secret parts threshold xCoordinates _ hs h2 h255 hperm sel hnd hsel2
      (by omega)
  · exact combine_shares secret parts threshold xCoordinates _ hs h2 h255 hperm
      (List.range parts.toNat) (List.nodup_range _) (fun i hi => List.mem_range.mp hi)
      (by rw [List.length_range]; omega)

/-- Witness of C18: the secret `[0x41, 0x42]` split into 5 shares with threshold 3. -/
theorem C18_more_shares_reconstruct_witness :
    ∃ shares, Split gfTables [0x41, 0x42] 5 3 identityPerm (fun idx => .ok (sampleCoeffs idx))
        = .ok shares ∧
      (∀ sel : List Nat, sel.Nodup → (∀ i ∈ sel, i < shares.length) →
        (3 : Int) ≤ (sel.length : Int) →
        (sel.length : Int) ≤ 5 ∧
          Combine gfTables (sel.map (fun i => shares.getD i [])) = .ok [0x41, 0x42]) ∧
      Combine gfTables shares = .ok [0x41, 0x42] :=
  C18_more_shares_reconstruct [0x41, 0x42] 5 3 identityPerm sampleCoeffs
    (by decide) (by decide) (by decide) (by decide) (List.Perm.refl _)

/-! ## Evaluation as a sum of monomials, and interpolation at the nodes -/

theorem powMult_eq_pow (x : U8) (i : Nat) : toGF (powMult gfTables x i) = (toGF x) ^ i := by
  induction i with
  | zero => rfl
  | succ k ih =>
    rw [pow_succ, ← ih]
    rfl

theorem polySum_eq_sum (cs : List U8) (x : U8) :
    toGF (polySum gfTables cs x)
      = ∑ i ∈ Finset.range cs.length, sampleAt cs i * (toGF x) ^ i := by
  unfold polySum
  rw [foldl_eq_sum cs.length _ (fun i => sampleAt cs i * (toGF x) ^ i)]
  · exact zero_add _
  · intro acc i _
    rw [← powMult_eq_pow]
    rfl

theorem hornerVal_eq_sum (cs : List U8) (x : U8) :
    toGF (hornerVal gfTables cs x)
      = ∑ i ∈ Finset.range cs.length, sampleAt cs i * (toGF x) ^ i := by
  induction cs with
  | nil => simp [hornerVal, toGF]
  | cons c cs ih =>
    have hstep : toGF (hornerVal gfTables (c :: cs) x)
        = toGF (hornerVal gfTables cs x) * toGF x + toGF c := rfl
    rw [hstep, ih, List.length_cons, Finset.sum_range_succ', Finset.sum_mul]
    congr 1
    · apply Finset.sum_congr rfl
      intro i _
      rw [pow_succ, mul_assoc]
      rfl
    · simp [sampleAt]

theorem hornerVal_eq_polySum (cs : List U8) (x : U8) :
    hornerVal gfTables cs x = polySum gfTables cs x := by
  have h : toGF (hornerVal gfTables cs x) = toGF (polySum gfTables cs x) := by
    rw [hornerVal_eq_sum, polySum_eq_sum]
  exact h

/-- Claim C16 (`evaluate` computes the polynomial): with the package's tables, for every
polynomial with a non-empty coefficient list `c` and every byte `x`, `evaluate(p, x)` is the XOR
over `i` of `mult(c[i], x^i)`, where `x^i` is the `i`-fold product of `x` and `x^0 = 1`;
`evaluate(p, 0)` is `c[0]`, and the Horner loop run at `x = 0` returns the same `c[0]` as the
shortcut for `x = 0`. -/
theorem C16_evaluate_is_polynomial (cs : List U8) (x : U8) (hcs : cs ≠ []) :
    evaluate gfTables ⟨cs⟩ x = .ok (polySum gfTables cs x) ∧
    evaluate gfTables ⟨cs⟩ 0 = .ok (cs.getD 0 0) ∧
    polySum gfTables cs 0 = cs.getD 0 0 ∧
    (index cs (cs.length - 1) >>= evaluateLoop gfTables cs 0 (cs.length - 1))
      = .ok (cs.getD 0 0) := by
  obtain ⟨c, tl, rfl⟩ := List.exists_cons_of_ne_nil hcs
  have h0 : hornerVal gfTables (c :: tl) 0 = c := hornerVal_at_zero gfTables c tl
  refine ⟨?_, ?_, ?_, ?_⟩
  · rw [evaluate_eq gfTables _ _ hcs, hornerVal_eq_polySum]
  · rw [evaluate_eq gfTables _ _ hcs, h0]
    rfl
  · rw [← hornerVal_eq_polySum, h0]
    rfl
  · have hlen : tl.length < (c :: tl).length := by simp
    have hd : hornerVal gfTables ((c :: tl).drop tl.length) 0
        = (c :: tl).get ⟨tl.length, hlen⟩ := by
      rw [List.drop_eq_getElem_cons hlen]
      simp [hornerVal, mult_zero_left, zero_add']
    simp only [List.length_cons, Nat.add_sub_cancel]
    rw [index_eq_ok _ _ hlen, ok_bind, ← hd,
      evaluateLoop_eq gfTables (c :: tl) 0 tl.length (Nat.le_of_lt hlen), h0]
    rfl

/-- Witness of C16: the polynomial with coefficients `[0x41, 5, 16]` at `x = 3`. -/
theorem C16_evaluate_is_polynomial_witness :
    evaluate gfTables ⟨[0x41, 5, 16]⟩ 3 = .ok (polySum gfTables [0x41, 5, 16] 3) ∧
    evaluate gfTables ⟨[0x41, 5, 16]⟩ 0 = .ok (([0x41, 5, 16] : List U8).getD 0 0) ∧
    polySum gfTables [0x41, 5, 16] 0 = ([0x41, 5, 16] : List U8).getD 0 0 ∧
    (index ([0x41, 5, 16] : List U8) (([0x41, 5, 16] : List U8).length - 1)
        >>= evaluateLoop gfTables [0x41, 5, 16] 0 (([0x41, 5, 16] : List U8).length - 1))
      = .ok (([0x41, 5, 16] : List U8).getD 0 0) :=
  C16_evaluate_is_polynomial [0x41, 5, 16] 3 (by decide)

theorem interpVal_at_node (xs ys : List U8) (k : Nat) (hnd : xs.Nodup) (hk : k < xs.length) :
    interpVal gfTables xs ys (xs.getD k 0) = ys.getD k 0 := by
  have hinj : Set.InjOn (sampleAt xs) (Finset.range xs.length : Set Nat) := by
    intro i hi j hj hij
    by_contra hne
    have hi2 : i < xs.length := by simpa using hi
    have hj2 : j < xs.length := by simpa using hj
    exact nodup_getD_ne xs hnd i j hi2 hj2 hne hij
  have h1 := interpVal_eq_sum xs ys (xs.getD k 0) hnd
  have h2 := Lagrange.eval_interpolate_at_node (sampleAt ys) hinj (Finset.mem_range.mpr hk)
  have h3 : toGF (xs.getD k 0) = sampleAt xs k := rfl
  rw [h3, h2] at h1
  exact h1

/-- Claim C17 (interpolation reconstructs the value of the polynomial): with the package's
tables, for every polynomial `p` with `n ≥ 1` coefficients, every list `xs` of at least `n`
pairwise distinct bytes, the list `ys` of the values `evaluate(p, xs[k])` and every byte `x`,
`interpolatePolynomial(xs, ys, x) = evaluate(p, x)`; and for pairwise distinct `xs` and
arbitrary `zs`, `interpolatePolynomial(xs, zs, xs[k]) = zs[k]` for every index `k`. -/
theorem C17_interpolation_reconstructs (cs xs ys : List U8) (x : U8) (hcs : cs ≠ [])
    (hlen : cs.length ≤ xs.length) (hnd : xs.Nodup) (hys : ys.length = xs.length)
    (hval : ∀ k, k < xs.length →
      evaluate gfTables ⟨cs⟩ (xs.getD k 0) = .ok (ys.getD k 0)) :
    interpolatePolynomial gfTables xs ys x = evaluate gfTables ⟨cs⟩ x ∧
    (∃ v, evaluate gfTables ⟨cs⟩ x = .ok v) ∧
    ∀ (zs : List U8) (k : Nat), zs.length = xs.length → k < xs.length →
      interpolatePolynomial gfTables xs zs (xs.getD k 0) = .ok (zs.getD k 0) := by
  have hyeq : ys = xs.map (fun a => hornerVal gfTables cs a) := by
    apply List.ext_getElem?
    intro k
    by_cases hk : k < xs.length
    · have hk2 : k < ys.length := by omega
      have hv := hval k hk
      rw [evaluate_eq gfTables _ _ hcs, getD_eq_get _ _ _ hk, getD_eq_get _ _ _ hk2] at hv
      have hv2 := Result.ok.inj hv
      simp only [List.get_eq_getElem] at hv2
      simp [List.getElem?_eq_getElem hk, List.getElem?_eq_getElem hk2, hv2]
    · have e1 : ys[k]? = none := List.getElem?_eq_none (by omega)
      have e2 : (xs.map (fun a => hornerVal gfTables cs a))[k]? = none :=
        List.getElem?_eq_none (by simp; omega)
      rw [e1, e2]
  refine ⟨?_, ⟨_, evaluate_eq gfTables cs x hcs⟩, ?_⟩
  · rw [interpolatePolynomial_eq gfTables xs ys x hnd (by omega), evaluate_eq gfTables _ _ hcs,
      hyeq, interpVal_hornerVal cs xs x hnd hlen]
  · intro zs k hz hk
    rw [interpolatePolynomial_eq gfTables xs zs _ hnd (by omega),
      interpVal_at_node xs zs k hnd hk]

set_option maxRecDepth 100000 in
/-- Witness of C17: the polynomial `[0x41, 5, 16]` sampled at the points 1, 2, 3 and 4. -/
theorem C17_interpolation_reconstructs_witness :
    interpolatePolynomial gfTables [1, 2, 3, 4] [84, 11, 30, 78] 9
        = evaluate gfTables ⟨[0x41, 5, 16]⟩ 9 ∧
    (∃ v, evaluate gfTables ⟨[0x41, 5, 16]⟩ 9 = .ok v) ∧
    ∀ (zs : List U8) (k : Nat), zs.length = ([1, 2, 3, 4] : List U8).length →
      k < ([1, 2, 3, 4] : List U8).length →
      interpolatePolynomial gfTables [1, 2, 3, 4] zs (([1, 2, 3, 4] : List U8).getD k 0)
        = .ok (zs.getD k 0) :=
  C17_interpolation_reconstructs [0x41, 5, 16] [1, 2, 3, 4] [84, 11, 30, 78] 9
    (by decide) (by decide) (by decide) (by decide) (by decide)

/-! ## Independence of the order of the shares -/

theorem sampleAt_injOn (xs : List U8) (hnd : xs.Nodup) :
    Set.InjOn (sampleAt xs) (Finset.range xs.length : Set Nat) := by
  intro i hi j hj hij
  by_contra hne
  have hi2 : i < xs.length := by simpa using hi
  have hj2 : j < xs.length := by simpa using hj
  exact nodup_getD_ne xs hnd i j hi2 hj2 hne hij

theorem sampleAt_map {α : Type} (l : List α) (f : α → U8) (i : Nat) (hi : i < l.length) :
    sampleAt (l.map f) i = toGF (f (l.get ⟨i, hi⟩)) := by
  unfold sampleAt
  simp [List.getD_eq_getElem?_getD, List.getElem?_eq_getElem hi]

/-- Interpolation through the same points in another order gives the same value. -/
theorem interpVal_perm {α : Type} (l m : List α) (f g : α → U8) (x : U8) (hperm : m.Perm l)
    (hnd : (l.map f).Nodup) :
    interpVal gfTables (m.map f) (m.map g) x = interpVal gfTables (l.map f) (l.map g) x := by
  have hndm : (m.map f).Nodup := (hperm.map f).nodup_iff.mpr hnd
  have hlen : m.length = l.length := hperm.length_eq
  have hl := interpVal_eq_sum (l.map f) (l.map g) x hnd
  have hm := interpVal_eq_sum (m.map f) (m.map g) x hndm
  have hpoly : Lagrange.interpolate (Finset.range (l.map f).length) (sampleAt (l.map f))
      (sampleAt (l.map g))
      = Lagrange.interpolate (Finset.range (m.map f).length) (sampleAt (m.map f))
        (sampleAt (m.map g)) := by
    apply Lagrange.eq_interpolate_of_eval_eq (sampleAt (m.map g)) (sampleAt_injOn _ hndm)
    · have hd := Lagrange.degree_interpolate_lt (sampleAt (l.map g))
        (sampleAt_injOn (l.map f) hnd)
      simpa [hlen] using hd
    · intro i hi
      have hi2 : i < m.length := by simpa using hi
      have hmem : m.get ⟨i, hi2⟩ ∈ l := hperm.mem_iff.mp (List.get_mem m i hi2)
      obtain ⟨k, hk, hkeq⟩ := List.getElem_of_mem hmem
      have hk2 : k ∈ Finset.range (l.map f).length := by simpa using hk
      have hnode := Lagrange.eval_interpolate_at_node (sampleAt (l.map g))
        (sampleAt_injOn (l.map f) hnd) hk2
      rw [sampleAt_map m f i hi2, sampleAt_map m g i hi2, ← hkeq]
      rw [sampleAt_map l f k hk, sampleAt_map l g k hk] at hnode
      exact hnode
  have h : toGF (interpVal gfTables (m.map f) (m.map g) x)
      = toGF (interpVal gfTables (l.map f) (l.map g) x) := by
    rw [hl, hm, hpoly]
  exact h

/-- Claim C19 (`Combine` does not depend on the order of the shares): with the package's tables,
for every share list on which `Combine` succeeds and every permutation of that list, `Combine`
on the permuted list succeeds and returns the same byte sequence. -/
theorem C19_order_independent (parts permuted : List (List U8)) (secret : List U8)
    (hperm : permuted.Perm parts) (h : Combine gfTables parts = .ok secret) :
    Combine gfTables permuted = .ok secret := by
  rcases Combine_cases gfTables parts with ⟨_, he⟩ | ⟨_, _, he⟩ | ⟨_, _, _, he⟩ |
    ⟨_, _, _, _, he⟩ | ⟨hn, hf, hL, hns, hok⟩
  · rw [he] at h
    exact Result.noConfusion h
  · rw [he] at h
    exact Result.noConfusion h
  · rw [he] at h
    exact Result.noConfusion h
  · rw [he] at h
    exact Result.noConfusion h
  · have hnd : (tagsOf parts (parts.getD 0 []).length).Nodup := by
      by_contra hcon
      exact hns ((tags_dup_iff parts _ hL (by omega)).mp hcon)
    have hL2 : ∀ p ∈ permuted, p.length = (parts.getD 0 []).length :=
      fun p hp => hL p (hperm.mem_iff.mp hp)
    have hnd2 : (tagsOf permuted (parts.getD 0 []).length).Nodup :=
      (hperm.map _).nodup_iff.mpr hnd
    have hok2 := (Combine_eq gfTables permuted (parts.getD 0 []).length
      (by rw [hperm.length_eq]; exact hn) hL2 hf).1 hnd2
    rw [hok2, ← h, hok]
    congr 1
    apply map_range_congr
    intro idx _
    exact interpVal_perm parts permuted _ _ 0 hperm hnd

set_option maxRecDepth 100000 in
/-- Witness of C19: three shares of `Split([0x41, 0x42], 5, 3)` in two different orders. -/
theorem C19_order_independent_witness :
    Combine gfTables [[91, 136, 5], [84, 93, 1], [30, 221, 3]] = .ok [0x41, 0x42] :=
  C19_order_independent [[84, 93, 1], [30, 221, 3], [91, 136, 5]]
    [[91, 136, 5], [84, 93, 1], [30, 221, 3]] [0x41, 0x42]
    (by decide) (by decide)

/-! ## Secrecy of fewer than `threshold` shares -/

open Polynomial in
/-- Horner's value is the value of the polynomial with the listed coefficients. -/
theorem hornerVal_poly_coeff (cs : List U8) :
    ∃ p : Polynomial GF, p.degree < (cs.length : WithBot Nat) ∧
      (∀ x : GF, p.eval x = hornerVal gfTables cs x) ∧
      ∀ k, p.coeff k = sampleAt cs k := by
  induction cs with
  | nil =>
    refine ⟨0, ?_, ?_, ?_⟩
    · simp
    · intro x
      simp [hornerVal]
    · intro k
      simp [sampleAt, toGF]
  | cons c cs ih =>
    obtain ⟨p, hdeg, hev, hco⟩ := ih
    refine ⟨C (toGF c) + p * X, ?_, ?_, ?_⟩
    · apply lt_of_le_of_lt (degree_add_le _ _)
      apply max_lt
      · apply lt_of_le_of_lt degree_C_le
        simp only [List.length_cons, Nat.cast_add, Nat.cast_one]
        exact_mod_cast Nat.succ_pos cs.length
      · rw [degree_mul_X]
        simp only [List.length_cons, Nat.cast_add, Nat.cast_one]
        exact WithBot.add_lt_add_right (by simp) hdeg
    · intro x
      rw [hornerVal_cons, eval_add, eval_C, eval_mul, eval_X, hev, add_comm]
      rfl
    · intro k
      cases k with
      | zero => simp [sampleAt]
      | succ j =>
        rw [coeff_add, coeff_C_succ, coeff_mul_X, hco, zero_add]
        simp [sampleAt]

theorem list_eq_of_sampleAt (l m : List U8) (hlen : l.length = m.length)
    (h : ∀ k, sampleAt l k = sampleAt m k) : l = m := by
  apply List.ext_getElem?
  intro k
  by_cases hk : k < l.length
  · have hk2 : k < m.length := by omega
    have hs := h k
    unfold sampleAt toGF at hs
    rw [getD_eq_get _ _ _ hk, getD_eq_get _ _ _ hk2] at hs
    simp only [List.get_eq_getElem] at hs
    rw [List.getElem?_eq_getElem hk, List.getElem?_eq_getElem hk2, hs]
  · rw [List.getElem?_eq_none (by omega), List.getElem?_eq_none (by omega)]

/-- The coefficient list of a polynomial gives back its values by Horner's rule. -/
theorem hornerVal_of_coeffs (P : Polynomial GF) (n : Nat)
    (hdeg : P.degree < (n : WithBot Nat)) (x : U8) :
    toGF (hornerVal gfTables ((List.range n).map (fun k => ofGF (P.coeff k))) x)
      = P.eval (toGF x) := by
  obtain ⟨q, _, hqev, hqco⟩ :=
    hornerVal_poly_coeff ((List.range n).map (fun k => ofGF (P.coeff k)))
  have hqP : q = P := by
    apply Polynomial.ext
    intro j
    rw [hqco]
    by_cases hj : j < n
    · simp [sampleAt, List.getD_eq_getElem?_getD, hj, toGF, ofGF]
    · have hz : P.coeff j = 0 := by
        apply Polynomial.coeff_eq_zero_of_degree_lt
        apply lt_of_lt_of_le hdeg
        exact_mod_cast (by omega : n ≤ j)
      have hnone : ((List.range n).map (fun k => ofGF (P.coeff k)))[j]? = none :=
        List.getElem?_eq_none (by simp; omega)
      rw [hz]
      simp [sampleAt, List.getD_eq_getElem?_getD, hnone, toGF]
  rw [hqP] at hqev
  exact (hqev (toGF x)).symm

/-- Some coefficient list with the constant term `s` takes the values `ys` at the distinct
non-zero points `xs`. -/
theorem exists_coefficients (xs ys : List U8) (s : U8) (hnd : xs.Nodup)
    (hnz : ∀ a ∈ xs, a ≠ 0) :
    ∃ cs : List U8, cs.length = xs.length ∧
      ∀ k, k < xs.length → hornerVal gfTables (s :: cs) (xs.getD k 0) = ys.getD k 0 := by
  have hnd0 : ((0 : U8) :: xs).Nodup :=
    List.nodup_cons.mpr ⟨fun h0 => hnz 0 h0 rfl, hnd⟩
  have hinj := sampleAt_injOn ((0 : U8) :: xs) hnd0
  obtain ⟨P, hPdeg, hP0, hPk⟩ : ∃ P : Polynomial GF,
      P.degree < ((xs.length + 1 : Nat) : WithBot Nat) ∧ P.eval (toGF 0) = toGF s ∧
      ∀ k, k < xs.length → P.eval (toGF (xs.getD k 0)) = toGF (ys.getD k 0) := by
    refine ⟨Lagrange.interpolate (Finset.range ((0 : U8) :: xs).length)
      (sampleAt ((0 : U8) :: xs)) (sampleAt (s :: ys)), ?_, ?_, ?_⟩
    · have h := Lagrange.degree_interpolate_lt (sampleAt (s :: ys)) hinj
      rw [Finset.card_range] at h
      exact h
    · exact Lagrange.eval_interpolate_at_node (sampleAt (s :: ys)) hinj
        (Finset.mem_range.mpr (show 0 < ((0 : U8) :: xs).length by simp))
    · intro k hk
      exact Lagrange.eval_interpolate_at_node (sampleAt (s :: ys)) hinj
        (Finset.mem_range.mpr (show k + 1 < ((0 : U8) :: xs).length by simpa using hk))
  have hc0 : ofGF (P.coeff 0) = s := by
    rw [Polynomial.coeff_zero_eq_eval_zero]
    exact hP0
  have hlist : s :: (List.range xs.length).map (fun k => ofGF (P.coeff (k + 1)))
      = (List.range (xs.length + 1)).map (fun k => ofGF (P.coeff k)) := by
    rw [List.range_succ_eq_map, List.map_cons, List.map_map, hc0]
    rfl
  refine ⟨(List.range xs.length).map (fun k => ofGF (P.coeff (k + 1))), by simp, ?_⟩
  intro k hk
  rw [hlist]
  have h := hornerVal_of_coeffs P (xs.length + 1) hPdeg (xs.getD k 0)
  rw [hPk k hk] at h
  exact h

/-- Two coefficient lists with the same constant term and the same values at `n` distinct
non-zero points, both with `n` further coefficients, are equal. -/
theorem unique_coefficients (xs : List U8) (s : U8) (cs ds : List U8)
    (hnd : xs.Nodup) (hnz : ∀ a ∈ xs, a ≠ 0)
    (hc : cs.length = xs.length) (hd : ds.length = xs.length)
    (hv : ∀ k, k < xs.length →
      hornerVal gfTables (s :: cs) (xs.getD k 0) = hornerVal gfTables (s :: ds) (xs.getD k 0)) :
    cs = ds := by
  have hnd0 : ((0 : U8) :: xs).Nodup :=
    List.nodup_cons.mpr ⟨fun h0 => hnz 0 h0 rfl, hnd⟩
  have hinj := sampleAt_injOn ((0 : U8) :: xs) hnd0
  obtain ⟨p, hpdeg, hpev, hpco⟩ := hornerVal_poly_coeff (s :: cs)
  obtain ⟨q, hqdeg, hqev, hqco⟩ := hornerVal_poly_coeff (s :: ds)
  have hcard : (Finset.range ((0 : U8) :: xs).length).card = xs.length + 1 := by simp
  have hpq : p = q := by
    apply Polynomial.eq_of_degrees_lt_of_eval_index_eq (Finset.range ((0 : U8) :: xs).length) hinj
    · rw [hcard]
      simpa [hc] using hpdeg
    · rw [hcard]
      simpa [hd] using hqdeg
    · intro i hi
      have hi2 : i < xs.length + 1 := by simpa using hi
      rw [hpev, hqev]
      cases i with
      | zero =>
        show hornerVal gfTables (s :: cs) 0 = hornerVal gfTables (s :: ds) 0
        rw [hornerVal_at_zero, hornerVal_at_zero]
      | succ k => exact hv k (by omega)
  have hl : s :: cs = s :: ds := by
    apply list_eq_of_sampleAt
    · simp [hc, hd]
    · intro k
      rw [← hpco, ← hqco, hpq]
  exact (List.cons.inj hl).2

/-- Claim C14 (secrecy of `threshold - 1` shares): with the package's tables, for every
`threshold`, so for every one in `[2, 255]`, every `threshold - 1` pairwise distinct non-zero x-coordinates `xs`
and every tuple `ys` of `threshold - 1` observed share bytes at one secret position, each
possible secret byte `s` is consistent with exactly one vector `cs` of `threshold - 1` random
coefficients: exactly one polynomial `s :: cs` has `evaluate(p, xs[k]) = ys[k]` for all `k`.
So every secret byte is consistent with the same number of coefficient choices, and under
uniformly random coefficients the observed bytes are distributed alike for every secret byte. -/
theorem C14_secrecy (threshold : Nat) (xs ys : List U8) (s : U8)
    (hxl : xs.length = threshold - 1) (hyl : ys.length = threshold - 1)
    (hnd : xs.Nodup) (hnz : ∀ a ∈ xs, a ≠ 0) :
    ∃! cs : List U8, cs.length = threshold - 1 ∧
      ∀ k, k < threshold - 1 →
        evaluate gfTables ⟨s :: cs⟩ (xs.getD k 0) = .ok (ys.getD k 0) := by
  obtain ⟨cs, hcl, hcv⟩ := exists_coefficients xs ys s hnd hnz
  refine ⟨cs, ⟨by rw [hcl, hxl], ?_⟩, ?_⟩
  · intro k hk
    rw [evaluate_eq gfTables _ _ (by simp), hcv k (by omega)]
  · rintro ds ⟨hdl, hdv⟩
    apply unique_coefficients xs s ds cs hnd hnz (by omega) hcl
    intro k hk
    have h := hdv k (by omega)
    rw [evaluate_eq gfTables _ _ (by simp)] at h
    rw [Result.ok.inj h, hcv k hk]

set_option maxRecDepth 100000 in
/-- Witness of C14: threshold 3, the x-coordinates 1 and 2, the observed bytes 84 and 11, and
the secret byte `0x41`. -/
theorem C14_secrecy_witness :
    ∃! cs : List U8, cs.length = 3 - 1 ∧
      ∀ k, k < 3 - 1 →
        evaluate gfTables ⟨0x41 :: cs⟩ (([1, 2] : List U8).getD k 0)
          = .ok (([84, 11] : List U8).getD k 0) :=
  C14_secrecy 3 [1, 2] [84, 11] 0x41 (by decide) (by decide) (by decide) (by decide)

/-! ## Division inverts multiplication -/

theorem expAt_congr (T : Tables) (k m : Nat) (h : k % 255 = m % 255) :
    expAt T k = expAt T m := by
  unfold expAt
  congr 2

/-- In tables whose exponentials undo the logarithms and are injective on `[0, 254]`, no
exponential is zero and the logarithm undoes the exponential modulo 255. -/
theorem log_exp_of_tables (T : Tables)
    (hexp : ∀ v : U8, v ≠ 0 → expAt T (T.logTable v).val = v)
    (hinj : ∀ i j : Fin 255, expAt T i.val = expAt T j.val → i = j) (k : Nat) :
    expAt T k ≠ 0 ∧ (T.logTable (expAt T k)).val % 255 = k % 255 := by
  have hinjf : Function.Injective (fun v : {v : U8 // v ≠ 0} =>
      (⟨(T.logTable v.val).val % 255, Nat.mod_lt _ (by decide)⟩ : Fin 255)) := by
    intro v w hvw
    have h1 : (T.logTable v.val).val % 255 = (T.logTable w.val).val % 255 :=
      congrArg Fin.val hvw
    have h2 := expAt_congr T _ _ h1
    rw [hexp v.val v.property, hexp w.val w.property] at h2
    exact Subtype.ext h2
  have hcard : Fintype.card {v : U8 // v ≠ 0} = Fintype.card (Fin 255) := by
    show Fintype.card {v : U8 // ¬ v = 0} = Fintype.card (Fin 255)
    rw [Fintype.card_subtype_compl, Fintype.card_subtype_eq, Fintype.card_fin, Fintype.card_fin]
  have hsurj := ((Fintype.bijective_iff_injective_and_card _).mpr ⟨hinjf, hcard⟩).2
  obtain ⟨v, hv⟩ := hsurj ⟨k % 255, Nat.mod_lt _ (by decide)⟩
  have hvk : (T.logTable v.val).val % 255 = k % 255 := congrArg Fin.val hv
  have hk : expAt T k = v.val := by
    rw [← expAt_congr T _ _ hvk, hexp v.val v.property]
  have hne : expAt T k ≠ 0 := by
    rw [hk]
    exact v.property
  refine ⟨hne, ?_⟩
  have h3 := hexp (expAt T k) hne
  have h4 : expAt T ((T.logTable (expAt T k)).val % 255) = expAt T (k % 255) := by
    rw [expAt_congr T _ _ (Nat.mod_mod _ 255), h3, expAt_congr T _ _ (Nat.mod_mod k 255)]
  have h5 := hinj ⟨(T.logTable (expAt T k)).val % 255, Nat.mod_lt _ (by decide)⟩
    ⟨k % 255, Nat.mod_lt _ (by decide)⟩ h4
  exact congrArg Fin.val h5

/-- Division inverts multiplication in all tables whose exponentials undo the logarithms, are
injective on `[0, 254]` and start with `exp[0] = 1`. -/
theorem div_mult_of_tables (T : Tables)
    (hexp : ∀ v : U8, v ≠ 0 → expAt T (T.logTable v).val = v)
    (hinj : ∀ i j : Fin 255, expAt T i.val = expAt T j.val → i = j)
    (hone : expAt T 0 = 1) (a b : U8) (hb : b ≠ 0) :
    div T (mult T a b) b = .ok a ∧
    (∃ q, div T a b = .ok q ∧ mult T q b = a) ∧
    div T b b = .ok 1 := by
  have hlb := (T.logTable b).isLt
  refine ⟨?_, ?_, ?_⟩
  · by_cases ha : a = 0
    · subst ha
      rw [mult_zero_left, div_eq T 0 b hb, if_pos rfl]
    · obtain ⟨hne, hlog⟩ := log_exp_of_tables T hexp hinj
        ((T.logTable a).val + (T.logTable b).val)
      rw [mult_eq, if_neg (by simp [ha, hb]), div_eq T _ b hb, if_neg hne]
      congr 1
      rw [expAt_congr T _ (T.logTable a).val (by omega)]
      exact hexp a ha
  · by_cases ha : a = 0
    · subst ha
      refine ⟨0, ?_, mult_zero_left T b⟩
      rw [div_eq T 0 b hb, if_pos rfl]
    · obtain ⟨hne, hlog⟩ := log_exp_of_tables T hexp hinj
        ((T.logTable a).val + 255 - (T.logTable b).val)
      refine ⟨expAt T ((T.logTable a).val + 255 - (T.logTable b).val), ?_, ?_⟩
      · rw [div_eq T a b hb, if_neg ha]
      · rw [mult_eq, if_neg (by simp [hne, hb]),
          expAt_congr T _ (T.logTable a).val (by omega)]
        exact hexp a ha
  · rw [div_eq T b b hb, if_neg hb]
    congr 1
    rw [expAt_congr T _ 0 (by omega)]
    exact hone

/-- Claim C21 (division inverts multiplication): with the package's tables, for every byte `a`
and every non-zero byte `b`, `div(mult(a, b), b) = a`, `mult(div(a, b), b) = a` and
`div(b, b) = 1`; the tables satisfy `exp[log[v] mod 255] = v` for every non-zero `v`, and `exp`
restricted to `[0, 254]` is injective. -/
theorem C21_div_inverts_mult (a b : U8) (hb : b ≠ 0) :
    div gfTables (mult gfTables a b) b = .ok a ∧
    (∃ q, div gfTables a b = .ok q ∧ mult gfTables q b = a) ∧
    div gfTables b b = .ok 1 ∧
    (∀ v : U8, v ≠ 0 → expAt gfTables (gfTables.logTable v).val = v) ∧
    (∀ i j : Fin 255, expAt gfTables i.val = expAt gfTables j.val → i = j) := by
  have hinj : ∀ i j : Fin 255, expAt gfTables i.val = expAt gfTables j.val → i = j := by
    intro i j hij
    have hi := (logOf_expOf_table i).2
    have hj := (logOf_expOf_table j).2
    rw [hij, hj] at hi
    exact Fin.ext hi.symm
  obtain ⟨h1, h2, h3⟩ := div_mult_of_tables gfTables expOf_logOf_table hinj expOf_zero a b hb
  exact ⟨h1, h2, h3, expOf_logOf_table, hinj⟩

/-- Witness of C21: the bytes `a = 0x53` and `b = 0xca`, whose product is 1. -/
theorem C21_div_inverts_mult_witness :
    div gfTables (mult gfTables 0x53 0xca) 0xca = .ok 0x53 ∧
    (∃ q, div gfTables 0x53 0xca = .ok q ∧ mult gfTables q 0xca = 0x53) ∧
    div gfTables 0xca 0xca = .ok 1 ∧
    (∀ v : U8, v ≠ 0 → expAt gfTables (gfTables.logTable v).val = v) ∧
    (∀ i j : Fin 255, expAt gfTables i.val = expAt gfTables j.val → i = j) :=
  C21_div_inverts_mult 0x53 0xca (by decide)

end Shamir
